import Mathlib

/-!
# Verification of the spatial-narrative analytics core

Shallow embedding of the analytics engine of the `spatial-narrative`
repository (`src/analysis/*.rs`) together with proofs of the specified
properties.

Modelling conventions:

* Rust `f64` arithmetic is embedded as exact rational (`ℚ`) arithmetic.
  The algorithms under verification only combine coordinates with
  `+ - * /`, comparisons, and calls to `haversine_distance`; the
  transcendental haversine function itself is kept abstract as a
  parameter `hav : ℚ → ℚ → ℚ → ℚ → ℚ` (same argument order
  `lat1 lon1 lat2 lon2` as the Rust function).  Every theorem that holds
  for every `hav` in particular holds for the real haversine function.
  Concrete witnesses instantiate `hav` with functions that agree with
  the real haversine on the coordinates actually used (e.g. the
  haversine distance between coincident points is exactly `0`, even in
  `f64` arithmetic).
* Rust `i64` millisecond timestamps are embedded as `ℤ`; Rust's
  truncating division `/` on `i64` is `Int.tdiv`.
* `Vec`/slice values are embedded as `List`s.
-/

/-- Modelled from the spec (the `core::location` module is not part of
the analysed sources): a Location is a latitude/longitude pair with an
optional elevation.  The analysis code reads only `lat`, `lon` and
`elevation`. -/
structure Location where
  lat : ℚ
  lon : ℚ
  elevation : Option ℚ := none
deriving DecidableEq, Repr

/-- `Location::new(lat, lon)` (modelled from the spec): construct a
location with no elevation. -/
def Location.new (lat lon : ℚ) : Location := ⟨lat, lon, none⟩

/-- Modelled from the spec (the `core::timestamp` module is not part of
the analysed sources): downstream analytics only ever use the signed
64-bit milliseconds-since-epoch value of a timestamp, so a timestamp is
embedded as that integer.  `to_unix_millis` is the identity and
`from_unix_millis` always succeeds (round-trip law of the spec). -/
abbrev Timestamp := ℤ

/-- Modelled from the spec (the `core::event` module is not part of the
analysed sources): an event is a location, a timestamp, and a list of
free-form tags; the label and source reference are never read by the
analytics code. -/
structure Event where
  location : Location
  timestamp : Timestamp
  tags : List String := []
deriving DecidableEq, Repr

instance : Inhabited Location := ⟨Location.new 0 0⟩

instance : Inhabited Event := ⟨⟨Location.new 0 0, 0, []⟩⟩

/-- Modelled from the spec (the `core::bounds` module is not part of the
analysed sources): a time range is a start and an end timestamp.  The
field `end` of the Rust struct is called `stop` here because `end` is a
Lean keyword. -/
structure TimeRange where
  start : Timestamp
  stop : Timestamp
deriving DecidableEq, Repr

/-- Modelled from the spec (the `core::bounds` module is not part of the
analysed sources): a geographic bounding box. -/
structure GeoBounds where
  min_lat : ℚ
  max_lat : ℚ
  min_lon : ℚ
  max_lon : ℚ
deriving DecidableEq, Repr

/-! ## Comparison (`src/analysis/comparison.rs`) -/

/-- The inner `for e2 in events2 { .. if dist <= threshold { matches += 1; break } }`
loop of `spatial_similarity`: event `e1` matches iff some event of
`events2` lies within `threshold_m` (the `break` makes the count
per-`e1` boolean). -/
def matchesIn (hav : ℚ → ℚ → ℚ → ℚ → ℚ) (threshold_m : ℚ) (e1 : Event)
    (events2 : List Event) : Bool :=
  events2.any fun e2 =>
    hav e1.location.lat e1.location.lon e2.location.lat e2.location.lon ≤ threshold_m

/-- `spatial_similarity` (comparison.rs lines 97-126): count matching
events of `events1`, then return `matches / (|events1| + |events2| - matches)`,
with `0` for an empty input and a guarded division. -/
def spatial_similarity (hav : ℚ → ℚ → ℚ → ℚ → ℚ)
    (events1 events2 : List Event) (threshold_m : ℚ) : ℚ :=
  if events1.isEmpty ∨ events2.isEmpty then 0
  else
    let nMatches := events1.countP fun e1 => matchesIn hav threshold_m e1 events2
    let union := events1.length + events2.length - nMatches
    if 0 < union then (nMatches : ℚ) / (union : ℚ) else 0

/-! ## Stop detection (`src/analysis/movement.rs`) -/

/-- `Stop` (movement.rs lines 177-190). -/
structure Stop where
  location : Location
  start : Timestamp
  stop : Timestamp
  duration_secs : ℚ
  event_count : ℕ
deriving DecidableEq, Repr

/-- `StopThreshold` (movement.rs lines 199-206). -/
structure StopThreshold where
  radius_m : ℚ
  min_duration_secs : ℚ
deriving DecidableEq, Repr

/-- `compute_centroid` (movement.rs lines 296-306): planar arithmetic
mean of the event locations. -/
def compute_centroid (events : List Event) : Location :=
  if events.isEmpty then Location.new 0 0
  else
    let sum_lat := (events.map fun e => e.location.lat).sum
    let sum_lon := (events.map fun e => e.location.lon).sum
    let n : ℚ := events.length
    Location.new (sum_lat / n) (sum_lon / n)

/-- The inner `while end_idx < events.len() { .. }` loop of
`detect_stops` (movement.rs lines 252-264): starting at
`end_idx = start_idx`, the index advances while the current event stays
within `radius_m` of the anchor, so the final `end_idx` is `start_idx`
plus the length of the longest prefix of `events.drop start_idx` whose
elements all lie within `radius_m` of the anchor. -/
def extendWindow (hav : ℚ → ℚ → ℚ → ℚ → ℚ) (events : List Event)
    (anchor : Location) (radius_m : ℚ) (start_idx : ℕ) : ℕ :=
  start_idx + ((events.drop start_idx).takeWhile fun e =>
    hav anchor.lat anchor.lon e.location.lat e.location.lon ≤ radius_m).length

/-- The window end never lies before its start. -/
theorem extendWindow_ge (hav : ℚ → ℚ → ℚ → ℚ → ℚ) (events : List Event)
    (anchor : Location) (radius_m : ℚ) (start_idx : ℕ) :
    start_idx ≤ extendWindow hav events anchor radius_m start_idx :=
  Nat.le_add_right _ _

/-- The window end never runs past the end of the event list. -/
theorem extendWindow_le (hav : ℚ → ℚ → ℚ → ℚ → ℚ) (events : List Event)
    (anchor : Location) (radius_m : ℚ) (start_idx : ℕ)
    (h : start_idx ≤ events.length) :
    extendWindow hav events anchor radius_m start_idx ≤ events.length := by
  unfold extendWindow
  have h1 := (List.takeWhile_sublist (l := events.drop start_idx)
    fun e => decide (hav anchor.lat anchor.lon e.location.lat e.location.lon ≤ radius_m)).length_le
  simp only [List.length_drop] at h1
  omega

/-- The outer `while start_idx < events.len()` loop of `detect_stops`
(movement.rs lines 247-291).  `start_idx` strictly increases in every
iteration and the loop exits once `start_idx ≥ events.length`, so the
loop performs at most `events.length - start_idx` iterations; the `fuel`
argument is an upper bound on the remaining iterations (the wrapper
passes `events.length`, which is always sufficient, see
`detectStopsLoop_fuel_irrel`). -/
def detectStopsLoop (hav : ℚ → ℚ → ℚ → ℚ → ℚ) (events : List Event)
    (threshold : StopThreshold) : ℕ → ℕ → List Stop
  | 0, _ => []
  | fuel + 1, start_idx =>
    if start_idx < events.length then
      let end_idx := extendWindow hav events (events.getD start_idx default).location
        threshold.radius_m start_idx
      if end_idx > start_idx then
        let start_ts := (events.getD start_idx default).timestamp
        let end_ts := (events.getD (end_idx - 1) default).timestamp
        let duration_secs : ℚ := ((end_ts - start_ts : ℤ) : ℚ) / 1000
        if duration_secs ≥ threshold.min_duration_secs then
          let stop_events := (events.drop start_idx).take (end_idx - start_idx)
          { location := compute_centroid stop_events
            start := start_ts
            stop := end_ts
            duration_secs := duration_secs
            event_count := end_idx - start_idx } ::
            detectStopsLoop hav events threshold fuel end_idx
        else detectStopsLoop hav events threshold fuel (start_idx + 1)
      else detectStopsLoop hav events threshold fuel (start_idx + 1)
    else []

/-- Any fuel of at least `events.length - start_idx` yields the same
result, so the embedding with fuel `events.length` agrees with the Rust
`while` loop, which terminates because `start_idx` strictly increases. -/
theorem detectStopsLoop_fuel_irrel (hav : ℚ → ℚ → ℚ → ℚ → ℚ)
    (events : List Event) (threshold : StopThreshold) :
    ∀ fuel1 fuel2 start_idx, events.length - start_idx ≤ fuel1 →
      events.length - start_idx ≤ fuel2 →
      detectStopsLoop hav events threshold fuel1 start_idx =
        detectStopsLoop hav events threshold fuel2 start_idx := by
  intro fuel1
  induction fuel1 using Nat.strong_induction_on with
  | _ fuel1 ih =>
    intro fuel2 start_idx h1 h2
    match fuel1, fuel2 with
    | 0, 0 => rfl
    | 0, fuel2 + 1 =>
      have : ¬ start_idx < events.length := by omega
      simp only [detectStopsLoop, this, if_false]
    | fuel1 + 1, 0 =>
      have : ¬ start_idx < events.length := by omega
      simp only [detectStopsLoop, this, if_false]
    | fuel1 + 1, fuel2 + 1 =>
      simp only [detectStopsLoop]
      by_cases hlt : start_idx < events.length
      · simp only [hlt, if_true]
        have hgrow := extendWindow_ge hav events
          (events.getD start_idx default).location threshold.radius_m start_idx
        by_cases hgt : extendWindow hav events (events.getD start_idx default).location
            threshold.radius_m start_idx > start_idx
        · simp only [hgt, if_true]
          have hrec1 := ih fuel1 (by omega) fuel2
            (extendWindow hav events (events.getD start_idx default).location
              threshold.radius_m start_idx) (by omega) (by omega)
          have hrec2 := ih fuel1 (by omega) fuel2 (start_idx + 1) (by omega) (by omega)
          split
          · rw [hrec1]
          · rw [hrec2]
        · simp only [hgt, if_false]
          exact ih fuel1 (by omega) fuel2 (start_idx + 1) (by omega) (by omega)
      · simp only [hlt, if_false]

/-- `detect_stops` (movement.rs lines 238-294). -/
def detect_stops (hav : ℚ → ℚ → ℚ → ℚ → ℚ) (events : List Event)
    (threshold : StopThreshold) : List Stop :=
  if events.length < 2 then []
  else detectStopsLoop hav events threshold events.length 0

/-! ## Concrete instances used by counterexamples and witnesses

The theorems below are proved for an arbitrary `hav`; the closed
counterexamples and witnesses instantiate `hav` with computable
functions that agree with the real haversine distance in every
comparison the traced execution performs.  In particular the haversine
distance between coincident coordinates is exactly `0` (even in `f64`
arithmetic), and the distance between `(0,0)` and `(40,40)` is several
thousand kilometres, far above every threshold used below. -/

/-- Distance function that is `0` everywhere; it agrees with the real
haversine on coincident points, the only pairs the witnesses use. -/
def havZero : ℚ → ℚ → ℚ → ℚ → ℚ := fun _ _ _ _ => 0

/-- Distance function that is `0` on coincident coordinate pairs and
`10^7` (metres) otherwise; it agrees with the real haversine in every
comparison performed on the concrete inputs below (coincident points
are at distance `0 ≤ 100`, and `(0,0)`/`(40,40)` are ≈ 6,000 km apart,
certainly `> 100`). -/
def havFar : ℚ → ℚ → ℚ → ℚ → ℚ := fun lat1 lon1 lat2 lon2 =>
  if lat1 = lat2 ∧ lon1 = lon2 then 0 else 10000000

/-- An event at the origin at epoch time 0. -/
def originEvent : Event := { location := Location.new 0 0, timestamp := 0 }

/-- An event far from the origin (latitude/longitude 40). -/
def farEvent : Event := { location := Location.new 40 40, timestamp := 1000 }

/-! ## C1: spatial similarity -/

/-- C1 counterexample: three coincident events compared with one
coincident event give `matches = 3` and
`union = 3 + 1 - 3 = 1`, so `spatial_similarity` returns `3`, which is
outside `[0,1]`.  (`havZero` agrees with the real haversine here: all
four events are at the same coordinate, where the haversine distance is
exactly `0`.) -/
theorem spatial_similarity_not_le_one :
    spatial_similarity havZero [originEvent, originEvent, originEvent] [originEvent] 1000 = 3 ∧
    ¬ spatial_similarity havZero [originEvent, originEvent, originEvent] [originEvent] 1000 ≤ 1 := by
  have h : spatial_similarity havZero [originEvent, originEvent, originEvent]
      [originEvent] 1000 = 3 := by
    simp [spatial_similarity, matchesIn, havZero, originEvent]
  refine ⟨h, ?_⟩
  rw [h]
  norm_num

/-- C1 (amended): `spatial_similarity` returns `0` if either slice is
empty and otherwise returns `matches / (|set1| + |set2| - matches)`
where an event of set 1 counts as one match if some event of set 2 lies
within `threshold_m` of it; the returned value is always nonnegative,
and it is at most `1` whenever `|set1| ≤ |set2|` (without that
restriction the value can exceed `1`, see
`spatial_similarity_not_le_one`). -/
theorem spatial_similarity_spec (hav : ℚ → ℚ → ℚ → ℚ → ℚ)
    (events1 events2 : List Event) (threshold_m : ℚ) :
    (events1 = [] ∨ events2 = [] →
      spatial_similarity hav events1 events2 threshold_m = 0) ∧
    (events1 ≠ [] → events2 ≠ [] →
      spatial_similarity hav events1 events2 threshold_m =
        ((events1.countP fun e1 => matchesIn hav threshold_m e1 events2 : ℕ) : ℚ) /
          ((events1.length : ℚ) + (events2.length : ℚ) -
            ((events1.countP fun e1 => matchesIn hav threshold_m e1 events2 : ℕ) : ℚ))) ∧
    0 ≤ spatial_similarity hav events1 events2 threshold_m ∧
    (events1.length ≤ events2.length →
      spatial_similarity hav events1 events2 threshold_m ≤ 1) := by
  by_cases hemp : events1 = [] ∨ events2 = []
  · have h0 : spatial_similarity hav events1 events2 threshold_m = 0 := by
      unfold spatial_similarity
      rcases hemp with h | h <;> simp [h]
    refine ⟨fun _ => h0, ?_, ?_, ?_⟩
    · intro h1 h2
      rcases hemp with h | h
      · exact absurd h h1
      · exact absurd h h2
    · rw [h0]
    · intro _; rw [h0]; norm_num
  · push_neg at hemp
    obtain ⟨h1, h2⟩ := hemp
    have hn1 : 0 < events1.length := List.length_pos.mpr h1
    have hn2 : 0 < events2.length := List.length_pos.mpr h2
    have hm : (events1.countP fun e1 => matchesIn hav threshold_m e1 events2) ≤
        events1.length := List.countP_le_length _
    have hunion : 0 < events1.length + events2.length -
        (events1.countP fun e1 => matchesIn hav threshold_m e1 events2) := by omega
    have heq : spatial_similarity hav events1 events2 threshold_m =
        ((events1.countP fun e1 => matchesIn hav threshold_m e1 events2 : ℕ) : ℚ) /
          (((events1.length + events2.length -
            (events1.countP fun e1 => matchesIn hav threshold_m e1 events2) : ℕ)) : ℚ) := by
      unfold spatial_similarity
      simp only [List.isEmpty_iff, h1, h2, or_self, if_false, hunion, if_true]
    have hcast : (((events1.length + events2.length -
        (events1.countP fun e1 => matchesIn hav threshold_m e1 events2) : ℕ)) : ℚ) =
        (events1.length : ℚ) + (events2.length : ℚ) -
          ((events1.countP fun e1 => matchesIn hav threshold_m e1 events2 : ℕ) : ℚ) := by
      have : (events1.countP fun e1 => matchesIn hav threshold_m e1 events2) ≤
          events1.length + events2.length := by omega
      push_cast [Nat.cast_sub this]
      ring
    refine ⟨?_, fun _ _ => by rw [heq, hcast], ?_, ?_⟩
    · intro h; rcases h with h | h
      · exact absurd h h1
      · exact absurd h h2
    · rw [heq]
      apply div_nonneg <;> positivity
    · intro hle
      rw [heq]
      have hnum : (events1.countP fun e1 => matchesIn hav threshold_m e1 events2) ≤
          events1.length + events2.length -
            (events1.countP fun e1 => matchesIn hav threshold_m e1 events2) := by omega
      rw [div_le_one (by exact_mod_cast hunion)]
      exact_mod_cast hnum

/-- C1 witness: the amended theorem applied at a concrete input with
`|set1| ≤ |set2|`. -/
theorem spatial_similarity_spec_witness :
    [originEvent].length ≤ [originEvent].length ∧
    spatial_similarity havZero [originEvent] [originEvent] 1000 ≤ 1 :=
  ⟨by decide, (spatial_similarity_spec havZero [originEvent] [originEvent] 1000).2.2.2
    (by decide)⟩

/-! ## C2: stop detection -/

/-- An event at the origin one hour after `originEvent`. -/
def originLater : Event := { location := Location.new 0 0, timestamp := 3600000 }

/-- Every stop emitted by the `detect_stops` loop has a duration of at
least `min_duration_secs` (by the emission guard), and when
`min_duration_secs` is strictly positive the emitted window must span
two distinct indices, hence at least two events. -/
theorem detectStopsLoop_stops (hav : ℚ → ℚ → ℚ → ℚ → ℚ) (events : List Event)
    (threshold : StopThreshold) :
    ∀ fuel start_idx s, s ∈ detectStopsLoop hav events threshold fuel start_idx →
      threshold.min_duration_secs ≤ s.duration_secs ∧
      (0 < threshold.min_duration_secs → 2 ≤ s.event_count) := by
  intro fuel
  induction fuel with
  | zero =>
    intro start_idx s hs
    simp [detectStopsLoop] at hs
  | succ fuel ih =>
    intro start_idx s hs
    rw [detectStopsLoop] at hs
    by_cases hlt : start_idx < events.length
    · simp only [hlt, if_true] at hs
      by_cases hgt : extendWindow hav events (events.getD start_idx default).location
          threshold.radius_m start_idx > start_idx
      · simp only [hgt, if_true] at hs
        by_cases hdur : (((events.getD (extendWindow hav events
              (events.getD start_idx default).location threshold.radius_m start_idx - 1)
              default).timestamp - (events.getD start_idx default).timestamp : ℤ) : ℚ) / 1000 ≥
            threshold.min_duration_secs
        · simp only [hdur, if_true, List.mem_cons] at hs
          rcases hs with hs | hs
          · subst hs
            refine ⟨hdur, ?_⟩
            intro hpos
            simp only
            by_contra hcnt
            have hidx : extendWindow hav events (events.getD start_idx default).location
                threshold.radius_m start_idx - 1 = start_idx := by omega
            rw [hidx] at hdur
            simp only [sub_self, Int.cast_zero, zero_div] at hdur
            exact absurd (lt_of_lt_of_le hpos hdur) (lt_irrefl 0)
          · exact ih _ s hs
        · simp only [hdur, if_false] at hs
          exact ih _ s hs
      · simp only [hgt, if_false] at hs
        exact ih _ s hs
    · simp only [hlt, if_false] at hs
      exact absurd hs (List.not_mem_nil s)

/-- C2 counterexample: with `min_duration_secs = 0` (a legal
`StopThreshold`: the Rust struct performs no validation), two events far
apart each form a one-event window of duration `0 ≥ 0`, so
`detect_stops` emits two stops with `event_count = 1`.  (`havFar` agrees
with the real haversine in every comparison traced here: coincident
points are at distance `0 ≤ 100`, and the two events are thousands of
kilometres apart, far above the 100 m radius.) -/
theorem detect_stops_event_count_one :
    (detect_stops havFar [originEvent, farEvent]
      { radius_m := 100, min_duration_secs := 0 }).map Stop.event_count = [1, 1] := by
  norm_num [detect_stops, detectStopsLoop, extendWindow, havFar, originEvent, farEvent,
    Location.new, compute_centroid]

/-- C2 (amended): every Stop emitted by `detect_stops` has
`duration_secs ≥ min_duration_secs`; and provided `min_duration_secs`
is strictly positive, every emitted Stop also has `event_count ≥ 2`
(for `min_duration_secs ≤ 0` a one-event window can be emitted, see
`detect_stops_event_count_one`). -/
theorem detect_stops_spec (hav : ℚ → ℚ → ℚ → ℚ → ℚ) (events : List Event)
    (threshold : StopThreshold) (s : Stop)
    (hs : s ∈ detect_stops hav events threshold) :
    threshold.min_duration_secs ≤ s.duration_secs ∧
    (0 < threshold.min_duration_secs → 2 ≤ s.event_count) := by
  unfold detect_stops at hs
  split at hs
  · exact absurd hs (List.not_mem_nil s)
  · exact detectStopsLoop_stops hav events threshold _ 0 s hs

/-- The concrete stop detected in the C2 witness scenario: two
coincident events one hour apart, radius 100 m, minimum duration
1800 s. -/
def stopEx : Stop :=
  { location := Location.new 0 0, start := 0, stop := 3600000,
    duration_secs := 3600, event_count := 2 }

/-- C2 witness: the theorem applied to the concrete stop emitted for
two coincident events one hour apart. -/
theorem detect_stops_spec_witness :
    1800 ≤ stopEx.duration_secs ∧ 2 ≤ stopEx.event_count := by
  have hmem : stopEx ∈ detect_stops havZero [originEvent, originLater]
      { radius_m := 100, min_duration_secs := 1800 } := by
    norm_num [detect_stops, detectStopsLoop, extendWindow, havZero, originEvent, originLater,
      Location.new, compute_centroid, stopEx]
  have h := detect_stops_spec havZero [originEvent, originLater]
    { radius_m := 100, min_duration_secs := 1800 } stopEx hmem
  exact ⟨h.1, h.2 (by norm_num)⟩

/-! ## Douglas-Peucker simplification (`src/analysis/movement.rs`) -/

/-- `perpendicular_distance` (movement.rs lines 356-374): planar
projection of `point` onto the segment `line_start → line_end` in
(lon,lat) space with the parameter clamped to `[0,1]`, then the
haversine distance from the point to the projection; falls back to the
point-to-point distance when the planar segment length is below
`1e-12`. -/
def perpendicular_distance (hav : ℚ → ℚ → ℚ → ℚ → ℚ)
    (point line_start line_end : Location) : ℚ :=
  let dx := line_end.lon - line_start.lon
  let dy := line_end.lat - line_start.lat
  let line_len_sq := dx * dx + dy * dy
  if line_len_sq < 1 / 1000000000000 then
    hav point.lat point.lon line_start.lat line_start.lon
  else
    let t := ((point.lon - line_start.lon) * dx + (point.lat - line_start.lat) * dy) /
      line_len_sq
    let t := max 0 (min 1 t)
    let proj_lon := line_start.lon + t * dx
    let proj_lat := line_start.lat + t * dy
    hav point.lat point.lon proj_lat proj_lon

/-- `find_max_perpendicular_distance` (movement.rs lines 338-354): fold
over the interior indices `1 .. events.len()-2`
(`enumerate().skip(1).take(len-2)` in the source, which is
`List.range' 1 (len-2)`), tracking the maximum distance and its index,
both starting at `0`. -/
def find_max_perpendicular_distance (hav : ℚ → ℚ → ℚ → ℚ → ℚ)
    (events : List Event) : ℚ × ℕ :=
  (List.range' 1 (events.length - 2)).foldl
    (fun acc i =>
      let dist := perpendicular_distance hav (events.getD i default).location
        (events.getD 0 default).location
        (events.getD (events.length - 1) default).location
      if dist > acc.1 then (dist, i) else acc)
    (0, 0)

/-- `douglas_peucker_indices` (movement.rs lines 311-336).  The Rust
function is recursive with no structural termination measure: when the
maximum perpendicular distance exceeds `epsilon` but the maximising
index is `0` (possible only when `epsilon < 0`, since distances are
nonnegative), the right recursive call receives the *entire* input
slice again and the recursion never terminates (a stack overflow in
Rust).  The embedding makes this explicit with a recursion budget:
`none` models the diverging execution, and
`douglasPeuckerAux_isSome` shows the budget `events.length + 1` used by
the wrapper is sufficient whenever `epsilon ≥ 0`. -/
def douglasPeuckerAux (hav : ℚ → ℚ → ℚ → ℚ → ℚ) (epsilon : ℚ) :
    ℕ → List Event → Option (List ℕ)
  | 0, _ => none
  | fuel + 1, events =>
    if events.length ≤ 2 then some (List.range events.length)
    else
      let md := find_max_perpendicular_distance hav events
      if md.1 > epsilon then
        match douglasPeuckerAux hav epsilon fuel (events.take (md.2 + 1)),
            douglasPeuckerAux hav epsilon fuel (events.drop md.2) with
        | some left, some right => some (left.dropLast ++ right.map (· + md.2))
        | _, _ => none
      else some [0, events.length - 1]

/-- `douglas_peucker_indices` entry point (recursion budget
`events.length + 1`, sufficient for every `epsilon ≥ 0`). -/
def douglas_peucker_indices (hav : ℚ → ℚ → ℚ → ℚ → ℚ) (events : List Event)
    (epsilon : ℚ) : Option (List ℕ) :=
  douglasPeuckerAux hav epsilon (events.length + 1) events

/-- `Trajectory::new` (movement.rs lines 22-30): events are sorted by
timestamp (Rust `sort_by_key` is a stable sort, as is `mergeSort`). -/
def trajectoryNew (events : List Event) : List Event :=
  events.mergeSort fun a b => a.timestamp ≤ b.timestamp

/-- `Trajectory::simplify` (movement.rs lines 162-174): for at most two
events return the trajectory unchanged, otherwise keep the
Douglas-Peucker indices and rebuild a trajectory (which re-sorts by
timestamp).  `none` models the diverging recursion. -/
def simplify (hav : ℚ → ℚ → ℚ → ℚ → ℚ) (events : List Event) (epsilon : ℚ) :
    Option (List Event) :=
  if events.length ≤ 2 then some events
  else (douglas_peucker_indices hav events epsilon).map fun indices =>
    trajectoryNew (indices.map fun i => events.getD i default)

/-- The running maximum in the `find_max_perpendicular_distance` fold
never decreases. -/
theorem foldMax_fst_le (d : ℕ → ℚ) :
    ∀ (l : List ℕ) (acc : ℚ × ℕ),
      acc.1 ≤ (l.foldl (fun acc i => if d i > acc.1 then (d i, i) else acc) acc).1 := by
  intro l
  induction l with
  | nil => intro acc; exact le_refl _
  | cons x t ih =>
    intro acc
    simp only [List.foldl_cons]
    by_cases h : d x > acc.1
    · simp only [h, if_true]
      exact le_of_lt (lt_of_lt_of_le h (ih (d x, x)))
    · simp only [h, if_false]
      exact ih acc

/-- If every candidate distance is at most `b` and the accumulator is at
most `b`, the fold result stays at most `b`. -/
theorem foldMax_fst_bounded (d : ℕ → ℚ) (b : ℚ) :
    ∀ (l : List ℕ) (acc : ℚ × ℕ), (∀ i ∈ l, d i ≤ b) → acc.1 ≤ b →
      (l.foldl (fun acc i => if d i > acc.1 then (d i, i) else acc) acc).1 ≤ b := by
  intro l
  induction l with
  | nil => intro acc _ hacc; exact hacc
  | cons x t ih =>
    intro acc hall hacc
    simp only [List.foldl_cons]
    by_cases h : d x > acc.1
    · simp only [h, if_true]
      exact ih (d x, x) (fun i hi => hall i (List.mem_cons_of_mem x hi))
        (hall x (List.mem_cons_self x t))
    · simp only [h, if_false]
      exact ih acc (fun i hi => hall i (List.mem_cons_of_mem x hi)) hacc

/-- The fold either returns the accumulator unchanged or returns a pair
whose index lies in the candidate list and whose distance is that
index's distance. -/
theorem foldMax_cases (d : ℕ → ℚ) :
    ∀ (l : List ℕ) (acc : ℚ × ℕ),
      (l.foldl (fun acc i => if d i > acc.1 then (d i, i) else acc) acc) = acc ∨
      ((l.foldl (fun acc i => if d i > acc.1 then (d i, i) else acc) acc).2 ∈ l ∧
        (l.foldl (fun acc i => if d i > acc.1 then (d i, i) else acc) acc).1 =
          d (l.foldl (fun acc i => if d i > acc.1 then (d i, i) else acc) acc).2) := by
  intro l
  induction l with
  | nil => intro acc; exact Or.inl rfl
  | cons x t ih =>
    intro acc
    simp only [List.foldl_cons]
    by_cases h : d x > acc.1
    · simp only [h, if_true]
      rcases ih (d x, x) with heq | ⟨hmem, hval⟩
      · rw [heq]
        exact Or.inr ⟨List.mem_cons_self x t, rfl⟩
      · exact Or.inr ⟨List.mem_cons_of_mem x hmem, hval⟩
    · simp only [h, if_false]
      rcases ih acc with heq | ⟨hmem, hval⟩
      · exact Or.inl heq
      · exact Or.inr ⟨List.mem_cons_of_mem x hmem, hval⟩

/-- When the maximum distance exceeds a nonnegative `epsilon`, the
maximising index is a genuine interior index (`1 ≤ idx ≤ len - 2`), and
the input has at least three events. -/
theorem find_max_snd_interior (hav : ℚ → ℚ → ℚ → ℚ → ℚ) (events : List Event)
    (epsilon : ℚ) (heps : 0 ≤ epsilon)
    (h : (find_max_perpendicular_distance hav events).1 > epsilon) :
    1 ≤ (find_max_perpendicular_distance hav events).2 ∧
      (find_max_perpendicular_distance hav events).2 ≤ events.length - 2 ∧
      3 ≤ events.length := by
  have hcases := foldMax_cases
    (fun i => perpendicular_distance hav (events.getD i default).location
      (events.getD 0 default).location (events.getD (events.length - 1) default).location)
    (List.range' 1 (events.length - 2)) (0, 0)
  rcases hcases with heq | ⟨hmem, _⟩
  · exfalso
    have : (find_max_perpendicular_distance hav events).1 = 0 := by
      unfold find_max_perpendicular_distance
      rw [heq]
    rw [this] at h
    exact absurd (lt_of_le_of_lt heps h) (lt_irrefl 0)
  · have hmem' : (find_max_perpendicular_distance hav events).2 ∈
        List.range' 1 (events.length - 2) := hmem
    rw [List.mem_range'] at hmem'
    obtain ⟨i, hi, hieq⟩ := hmem'
    have hne : List.range' 1 (events.length - 2) ≠ [] := by
      intro hnil
      rw [hnil] at hmem
      exact absurd hmem (List.not_mem_nil _)
    have hlen2 : 0 < events.length - 2 := by
      by_contra hz
      push_neg at hz
      interval_cases h2 : events.length - 2
      · simp at hne
    omega

/-- With a nonnegative `epsilon`, any recursion budget strictly larger
than the number of events suffices: `douglasPeuckerAux` returns a
value.  (This is the termination argument of the Rust recursion for
`epsilon ≥ 0`: both sub-slices are strictly shorter than the input.) -/
theorem douglasPeuckerAux_isSome (hav : ℚ → ℚ → ℚ → ℚ → ℚ) (epsilon : ℚ)
    (heps : 0 ≤ epsilon) :
    ∀ fuel (events : List Event), events.length < fuel →
      (douglasPeuckerAux hav epsilon fuel events).isSome := by
  intro fuel
  induction fuel with
  | zero => intro events h; omega
  | succ fuel ih =>
    intro events h
    rw [douglasPeuckerAux]
    by_cases hlen : events.length ≤ 2
    · simp [hlen]
    · simp only [hlen, if_false]
      by_cases hmd : (find_max_perpendicular_distance hav events).1 > epsilon
      · simp only [hmd, if_true]
        obtain ⟨h1, h2, h3⟩ := find_max_snd_interior hav events epsilon heps hmd
        have hl : (events.take ((find_max_perpendicular_distance hav events).2 + 1)).length <
            fuel := by
          rw [List.length_take]
          omega
        have hr : (events.drop (find_max_perpendicular_distance hav events).2).length <
            fuel := by
          rw [List.length_drop]
          omega
        obtain ⟨left, hleft⟩ := Option.isSome_iff_exists.mp (ih _ hl)
        obtain ⟨right, hright⟩ := Option.isSome_iff_exists.mp (ih _ hr)
        rw [hleft, hright]
        rfl
      · simp [hmd]

/-- Structure of a successful `douglasPeuckerAux` run: the returned
index list is strictly increasing, starts at index `0`, ends at the
last index, and mentions only valid indices. -/
theorem douglasPeuckerAux_struct (hav : ℚ → ℚ → ℚ → ℚ → ℚ) (epsilon : ℚ)
    (heps : 0 ≤ epsilon) :
    ∀ fuel (events : List Event) (l : List ℕ),
      douglasPeuckerAux hav epsilon fuel events = some l →
      1 ≤ events.length →
      List.Chain' (· < ·) l ∧ l.head? = some 0 ∧
        l.getLast? = some (events.length - 1) ∧ ∀ i ∈ l, i < events.length := by
  intro fuel
  induction fuel with
  | zero =>
    intro events l heq
    simp [douglasPeuckerAux] at heq
  | succ fuel ih =>
    intro events l heq hone
    rw [douglasPeuckerAux] at heq
    by_cases hlen : events.length ≤ 2
    · simp only [hlen, if_true, Option.some.injEq] at heq
      subst heq
      obtain ⟨k, hk⟩ : ∃ k, events.length = k + 1 := ⟨events.length - 1, by omega⟩
      refine ⟨List.chain'_iff_pairwise.mpr (List.pairwise_lt_range _), ?_, ?_, ?_⟩
      · rw [hk, List.range_succ_eq_map]
        rfl
      · rw [hk, List.range_succ, List.getLast?_concat]
        simp
      · intro i hi
        exact List.mem_range.mp hi
    · simp only [hlen, if_false] at heq
      by_cases hmd : (find_max_perpendicular_distance hav events).1 > epsilon
      · simp only [hmd, if_true] at heq
        obtain ⟨h1, h2, h3⟩ := find_max_snd_interior hav events epsilon heps hmd
        set m := (find_max_perpendicular_distance hav events).2 with hm
        rcases hL : douglasPeuckerAux hav epsilon fuel (events.take (m + 1)) with _ | left
        · rw [hL] at heq; simp at heq
        rcases hR : douglasPeuckerAux hav epsilon fuel (events.drop m) with _ | right
        · rw [hL, hR] at heq; simp at heq
        rw [hL, hR] at heq
        simp only [Option.some.injEq] at heq
        subst heq
        have hlenT : (events.take (m + 1)).length = m + 1 := by
          rw [List.length_take]; omega
        have hlenD : (events.drop m).length = events.length - m := List.length_drop m events
        obtain ⟨chL, hdL, glL, memL⟩ := ih (events.take (m + 1)) left hL (by omega)
        obtain ⟨chR, hdR, glR, memR⟩ := ih (events.drop m) right hR (by omega)
        rw [hlenT] at glL memL
        rw [hlenD] at glR memR
        simp only [Nat.add_sub_cancel] at glL
        -- `left` has at least two entries: it starts at 0 and ends at m ≥ 1.
        rcases left with _ | ⟨x, _ | ⟨y, t⟩⟩
        · exact absurd hdL (by simp)
        · exfalso
          simp only [List.head?_cons, Option.some.injEq] at hdL
          simp only [List.getLast?_singleton, Option.some.injEq] at glL
          omega
        have hx : x = 0 := by
          simp only [List.head?_cons, Option.some.injEq] at hdL
          exact hdL
        -- decompose `left` as dropLast ++ [m]
        have hnil : (x :: y :: t) ≠ [] := by simp
        have hlast : (x :: y :: t).getLast hnil = m := by
          have := List.getLast?_eq_getLast (x :: y :: t) hnil
          rw [this] at glL
          exact Option.some_injective _ glL
        have hsplit : (x :: y :: t).dropLast ++ [m] = x :: y :: t := by
          conv_rhs => rw [← List.dropLast_append_getLast hnil]
          rw [hlast]
        have hbd : ∀ a ∈ (x :: y :: t).dropLast.getLast?, a < m := by
          have hch : List.Chain' (· < ·) ((x :: y :: t).dropLast ++ [m]) := by
            rw [hsplit]; exact chL
          obtain ⟨_, _, hb⟩ := List.chain'_append.mp hch
          intro a ha
          exact hb a ha m rfl
        have hheadR : (right.map (· + m)).head? = some m := by
          rcases right with _ | ⟨r0, rt⟩
          · exact absurd hdR (by simp)
          · simp only [List.head?_cons, Option.some.injEq] at hdR
            simp [hdR]
        constructor
        · -- strict chain
          rw [List.chain'_append]
          refine ⟨chL.sublist (List.dropLast_sublist _), ?_, ?_⟩
          · rw [List.chain'_map]
            exact chR.imp fun a b hab => by omega
          · intro a ha b hb
            rw [hheadR] at hb
            simp only [Option.mem_def, Option.some.injEq] at hb
            subst hb
            exact hbd a ha
        constructor
        · -- head
          subst hx
          simp
        constructor
        · -- last
          rw [List.getLast?_append]
          have hglm : (right.map (· + m)).getLast? = some (events.length - 1) := by
            rcases hgr : right.getLast? with _ | rl
            · rw [hgr] at glR; simp at glR
            · rw [hgr] at glR
              simp only [Option.some.injEq] at glR
              have : (right.map (· + m)).getLast? = some (rl + m) := by
                rcases right with _ | ⟨r0, rt⟩
                · simp at hgr
                · rw [List.getLast?_map]  -- may not exist; fallback below
                  rw [hgr]
                  rfl
              rw [this, glR]
              congr 1
              omega
          rw [hglm]
          rfl
        · -- membership bound
          intro i hi
          rw [List.mem_append] at hi
          rcases hi with hi | hi
          · have : i ∈ x :: y :: t := (List.dropLast_sublist _).subset hi
            have := memL i this
            omega
          · rw [List.mem_map] at hi
            obtain ⟨j, hj, hji⟩ := hi
            have := memR j hj
            omega
      · simp only [hmd, if_false, Option.some.injEq] at heq
        subst heq
        refine ⟨?_, rfl, ?_, ?_⟩
        · simp only [List.chain'_cons, List.chain'_singleton, and_true]
          omega
        · rfl
        · intro i hi
          simp only [List.mem_cons, List.mem_singleton] at hi
          rcases hi with hi | hi | hi
          · omega
          · omega
          · simp at hi

/-- A strictly increasing list of indices below `n` has at most `n`
entries. -/
theorem chainLt_length_le (l : List ℕ) (n : ℕ) (hc : List.Chain' (· < ·) l)
    (hb : ∀ i ∈ l, i < n) : l.length ≤ n := by
  have hp : l.Pairwise (· < ·) := List.chain'_iff_pairwise.mp hc
  have hnd : l.Nodup := hp.imp Nat.ne_of_lt
  have hsub : l.toFinset ⊆ Finset.range n := by
    intro i hi
    rw [List.mem_toFinset] at hi
    rw [Finset.mem_range]
    exact hb i hi
  have hcard := Finset.card_le_card hsub
  rwa [List.toFinset_card_of_nodup hnd, Finset.card_range] at hcard

/-- A third coincident event, a further hour later. -/
def originLatest : Event := { location := Location.new 0 0, timestamp := 7200000 }

/-- C5 counterexample: the claim quantifies over *every* epsilon, but
for `epsilon = -1` on three coincident events the maximum perpendicular
deviation is `0 > -1` while the maximising index stays `0`, so the
right-hand recursive call of `douglas_peucker_indices` receives the
whole input again and the recursion never terminates (a stack overflow
in Rust); the embedding returns `none` for every recursion budget, in
particular for the wrapper's.  (`havZero` agrees with the real
haversine here: all distances taken are between coincident points.) -/
theorem simplify_neg_epsilon_diverges :
    simplify havZero [originEvent, originEvent, originEvent] (-1) = none := by
  norm_num [simplify, douglas_peucker_indices, douglasPeuckerAux,
    find_max_perpendicular_distance, perpendicular_distance, havZero, originEvent,
    Location.new, List.range']

/-- C5 (amended): for every trajectory (time-sorted event list) of
length at least 2 and every `epsilon ≥ 0`, `Trajectory::simplify`
terminates and returns a trajectory whose length is at most the input
length and which retains the first and the last input point; and
whenever `epsilon` is at least the perpendicular deviation of every
interior point, the output is exactly the two endpoints.  (For
`epsilon < 0` the recursion can diverge, see
`simplify_neg_epsilon_diverges`.) -/
theorem trajectory_simplify_spec (hav : ℚ → ℚ → ℚ → ℚ → ℚ)
    (events : List Event) (epsilon : ℚ)
    (hsort : events.Pairwise fun a b => a.timestamp ≤ b.timestamp)
    (hlen : 2 ≤ events.length) (heps : 0 ≤ epsilon) :
    ∃ out, simplify hav events epsilon = some out ∧
      out.length ≤ events.length ∧
      events.getD 0 default ∈ out ∧
      events.getD (events.length - 1) default ∈ out ∧
      ((∀ i, 1 ≤ i → i ≤ events.length - 2 →
          perpendicular_distance hav (events.getD i default).location
            (events.getD 0 default).location
            (events.getD (events.length - 1) default).location ≤ epsilon) →
        out = [events.getD 0 default, events.getD (events.length - 1) default]) := by
  by_cases hsmall : events.length ≤ 2
  · -- exactly two events: returned unchanged
    have h2 : events.length = 2 := by omega
    rcases events with _ | ⟨a, _ | ⟨b, _ | ⟨c, t⟩⟩⟩
    · simp at h2
    · simp at h2
    · refine ⟨[a, b], ?_, ?_, ?_, ?_, ?_⟩
      · simp [simplify]
      · simp
      · simp [List.getD]
      · simp [List.getD]
      · intro _
        simp [List.getD]
    · simp at h2
  · -- at least three events: the Douglas-Peucker recursion runs
    push_neg at hsmall
    have hrun := douglasPeuckerAux_isSome hav epsilon heps (events.length + 1) events
      (Nat.lt_succ_self _)
    obtain ⟨indices, hInd⟩ := Option.isSome_iff_exists.mp hrun
    have hInd' : douglas_peucker_indices hav events epsilon = some indices := hInd
    obtain ⟨hch, hhd, hgl, hmem⟩ := douglasPeuckerAux_struct hav epsilon heps
      (events.length + 1) events indices hInd (by omega)
    have hout : simplify hav events epsilon =
        some (trajectoryNew (indices.map fun i => events.getD i default)) := by
      unfold simplify
      rw [if_neg (by omega), hInd']
      rfl
    refine ⟨trajectoryNew (indices.map fun i => events.getD i default), hout, ?_, ?_, ?_, ?_⟩
    · -- length bound
      have hperm := List.mergeSort_perm (indices.map fun i => events.getD i default)
        fun a b => a.timestamp ≤ b.timestamp
      rw [trajectoryNew, hperm.length_eq, List.length_map]
      exact le_trans (chainLt_length_le indices events.length hch hmem) (le_refl _)
    · -- first point retained
      have h0 : (0 : ℕ) ∈ indices := List.mem_of_mem_head? (by rw [hhd]; rfl)
      have : events.getD 0 default ∈ indices.map fun i => events.getD i default :=
        List.mem_map_of_mem _ h0
      exact (List.mergeSort_perm _ _).mem_iff.mpr this
    · -- last point retained
      have hN : events.length - 1 ∈ indices := List.mem_of_mem_getLast? (by rw [hgl]; rfl)
      have : events.getD (events.length - 1) default ∈
          indices.map fun i => events.getD i default := List.mem_map_of_mem _ hN
      exact (List.mergeSort_perm _ _).mem_iff.mpr this
    · -- collapse to the two endpoints when epsilon dominates
      intro hall
      have hbound : ¬ (find_max_perpendicular_distance hav events).1 > epsilon := by
        have := foldMax_fst_bounded
          (fun i => perpendicular_distance hav (events.getD i default).location
            (events.getD 0 default).location
            (events.getD (events.length - 1) default).location)
          epsilon (List.range' 1 (events.length - 2)) (0, 0)
          (by
            intro i hi
            rw [List.mem_range'] at hi
            obtain ⟨j, hj, hij⟩ := hi
            exact hall i (by omega) (by omega))
          heps
        unfold find_max_perpendicular_distance
        exact not_lt.mpr this
      have hInd2 : douglas_peucker_indices hav events epsilon =
          some [0, events.length - 1] := by
        unfold douglas_peucker_indices
        rw [douglasPeuckerAux]
        rw [if_neg (by omega), if_neg hbound]
      rw [hInd'] at hInd2
      simp only [Option.some.injEq] at hInd2
      subst hInd2
      -- the rebuilt trajectory sorts the two retained endpoints, which
      -- are already in timestamp order
      have hts : (events.getD 0 default).timestamp ≤
          (events.getD (events.length - 1) default).timestamp := by
        have hget := List.pairwise_iff_get.mp hsort ⟨0, by omega⟩
          ⟨events.length - 1, by omega⟩ (by simp; omega)
        rw [List.getD_eq_getElem events default (by omega : 0 < events.length),
          List.getD_eq_getElem events default (by omega : events.length - 1 < events.length)]
        exact hget
      simp only [List.map_cons, List.map_nil, trajectoryNew]
      simp only [List.getD_eq_getElem?_getD] at hts
      simp [List.mergeSort, List.merge, hts]

/-- C5 witness: the amended theorem applied to a concrete three-event
time-sorted trajectory with `epsilon = 1000 ≥ 0`. -/
theorem trajectory_simplify_spec_witness :
    ∃ out, simplify havZero [originEvent, originLater, originLatest] 1000 = some out ∧
      out.length ≤ [originEvent, originLater, originLatest].length ∧
      [originEvent, originLater, originLatest].getD 0 default ∈ out ∧
      [originEvent, originLater, originLatest].getD
        ([originEvent, originLater, originLatest].length - 1) default ∈ out ∧
      ((∀ i, 1 ≤ i → i ≤ [originEvent, originLater, originLatest].length - 2 →
          perpendicular_distance havZero
            ([originEvent, originLater, originLatest].getD i default).location
            ([originEvent, originLater, originLatest].getD 0 default).location
            ([originEvent, originLater, originLatest].getD
              ([originEvent, originLater, originLatest].length - 1) default).location ≤ 1000) →
        out = [[originEvent, originLater, originLatest].getD 0 default,
          [originEvent, originLater, originLatest].getD
            ([originEvent, originLater, originLatest].length - 1) default]) :=
  trajectory_simplify_spec havZero [originEvent, originLater, originLatest] 1000
    (by decide) (by norm_num) (by norm_num)

/-! ## Temporal metrics (`src/analysis/temporal_metrics.rs`) -/

/-- `TimeBin` (temporal_metrics.rs lines 129-141). -/
inductive TimeBin where
  | hour
  | day
  | week
  | month
  | year
deriving DecidableEq, Repr

/-- The fixed bin width in milliseconds (temporal_metrics.rs lines
194-200). -/
def binMillis : TimeBin → ℤ
  | .hour => 3600000
  | .day => 86400000
  | .week => 604800000
  | .month => 2629800000
  | .year => 31557600000

/-- Every bin width is positive. -/
theorem binMillis_pos (b : TimeBin) : 0 < binMillis b := by
  cases b <;> decide

/-- `TimeBinCount` (temporal_metrics.rs lines 144-152). -/
structure TimeBinCount where
  start : Timestamp
  stop : Timestamp
  count : ℕ
deriving DecidableEq, Repr

/-- The bin an event falls into: `(ts / bin_millis) * bin_millis`
(temporal_metrics.rs line 207; `i64` division truncates toward zero,
which is `Int.tdiv`). -/
def eventBin (bin_size : TimeBin) (e : Event) : ℤ :=
  (e.timestamp.tdiv (binMillis bin_size)) * binMillis bin_size

/-- The `while bin_start <= last_bin { .. bin_start += bin_millis }`
loop of `event_rate` (temporal_metrics.rs lines 215-225): all bin
starts from `first_bin` to `last_bin` in steps of the bin width. -/
def binStarts (bin_size : TimeBin) (first_bin last_bin : ℤ) : List ℤ :=
  if first_bin ≤ last_bin then
    first_bin :: binStarts bin_size (first_bin + binMillis bin_size) last_bin
  else []
termination_by (last_bin + 1 - first_bin).toNat
decreasing_by
  have := binMillis_pos bin_size
  omega

/-- Sorting by timestamp, as `sort_by_key(to_unix_millis)` does
(temporal_metrics.rs lines 188-189 and elsewhere; Rust `sort_by_key`
and `mergeSort` are both stable). -/
def sortByTs (events : List Event) : List Event :=
  events.mergeSort fun a b => a.timestamp ≤ b.timestamp

/-- `event_rate` (temporal_metrics.rs lines 182-228): sort the events,
bin each timestamp by truncating division, and emit one `TimeBinCount`
for every bin start between the first and last event's bin (the Rust
code accumulates a `HashMap` from bin start to count and reads it back
with `unwrap_or(0)`; a bin's stored count is exactly the number of
events falling in that bin, which is the `countP` below). -/
def event_rate (events : List Event) (bin_size : TimeBin) : List TimeBinCount :=
  if events.isEmpty then []
  else
    let sorted := sortByTs events
    let first_ts := (sorted.headI).timestamp
    let last_ts := (sorted.getLastI).timestamp
    let bm := binMillis bin_size
    let first_bin := (first_ts.tdiv bm) * bm
    let last_bin := (last_ts.tdiv bm) * bm
    (binStarts bin_size first_bin last_bin).map fun bin_start =>
      { start := bin_start, stop := bin_start + bm,
        count := sorted.countP fun e => eventBin bin_size e = bin_start }

/-- Rust's truncating `i64` division is monotone in the dividend (for a
positive divisor). -/
theorem tdiv_le_tdiv_of_le (a c b : ℤ) (hb : 0 < b) (h : a ≤ c) :
    a.tdiv b ≤ c.tdiv b := by
  rcases le_or_lt 0 a with ha | ha
  · rw [Int.tdiv_eq_ediv ha (le_of_lt hb), Int.tdiv_eq_ediv (le_trans ha h) (le_of_lt hb)]
    exact Int.ediv_le_ediv hb h
  · rcases le_or_lt 0 c with hc | hc
    · have h1 : a.tdiv b ≤ 0 := by
        have : (-a).tdiv b ≥ 0 := Int.tdiv_nonneg (by omega) (le_of_lt hb)
        rw [Int.neg_tdiv] at this
        omega
      exact le_trans h1 (Int.tdiv_nonneg hc (le_of_lt hb))
    · have ha' : a.tdiv b = -((-a) / b) := by
        have h1 : (-(-a)).tdiv b = -((-a).tdiv b) := Int.neg_tdiv (-a) b
        simp only [neg_neg] at h1
        rw [h1, Int.tdiv_eq_ediv (by omega) (le_of_lt hb)]
      have hc' : c.tdiv b = -((-c) / b) := by
        have h1 : (-(-c)).tdiv b = -((-c).tdiv b) := Int.neg_tdiv (-c) b
        simp only [neg_neg] at h1
        rw [h1, Int.tdiv_eq_ediv (by omega) (le_of_lt hb)]
      rw [ha', hc']
      have := Int.ediv_le_ediv hb (by omega : -c ≤ -a)
      omega

/-- Consecutive entries of `binStarts` differ by exactly the bin
width. -/
theorem binStarts_chain (b : TimeBin) (first last : ℤ) :
    List.Chain' (fun x y => y = x + binMillis b) (binStarts b first last) := by
  rw [binStarts]
  split
  · rw [List.chain'_cons']
    refine ⟨?_, binStarts_chain b (first + binMillis b) last⟩
    intro y hy
    rw [binStarts] at hy
    split at hy
    · simp only [List.head?_cons, Option.mem_def, Option.some.injEq] at hy
      omega
    · simp at hy
  · exact List.chain'_nil
termination_by (last + 1 - first).toNat
decreasing_by
  have := binMillis_pos b
  omega

/-- Membership in `binStarts`: the values reached by the loop are
exactly those between `first` and `last` at a multiple-of-the-bin-width
offset from `first`. -/
theorem mem_binStarts (b : TimeBin) (first last x : ℤ) :
    x ∈ binStarts b first last ↔
      first ≤ x ∧ x ≤ last ∧ (binMillis b) ∣ (x - first) := by
  have hB := binMillis_pos b
  rw [binStarts]
  split
  · rename_i h
    rw [List.mem_cons, mem_binStarts b (first + binMillis b) last x]
    constructor
    · rintro (rfl | ⟨h1, h2, h3⟩)
      · exact ⟨le_refl x, h, by simp⟩
      · obtain ⟨k, hk⟩ := h3
        exact ⟨by omega, h2, ⟨k + 1, by linarith⟩⟩
    · rintro ⟨h1, h2, ⟨k, hk⟩⟩
      rcases eq_or_lt_of_le h1 with rfl | hlt
      · exact Or.inl rfl
      · refine Or.inr ⟨?_, h2, ⟨k - 1, by linarith⟩⟩
        have hkpos : 0 < k := by
          rcases lt_trichotomy k 0 with hneg | rfl | hpos
          · nlinarith
          · omega
          · exact hpos
        nlinarith
  · rename_i h
    simp only [List.not_mem_nil, false_iff]
    rintro ⟨h1, h2, _⟩
    omega
termination_by (last + 1 - first).toNat
decreasing_by
  have := binMillis_pos b
  omega

/-- `binStarts` has no duplicates (it is strictly increasing). -/
theorem binStarts_nodup (b : TimeBin) (first last : ℤ) :
    (binStarts b first last).Nodup := by
  have hch : List.Chain' (· < ·) (binStarts b first last) :=
    (binStarts_chain b first last).imp fun x y hxy => by
      have := binMillis_pos b
      omega
  exact (List.chain'_iff_pairwise.mp hch).imp Int.ne_of_lt

/-- The first entry of a nonempty `binStarts` run is `first`. -/
theorem binStarts_head (b : TimeBin) (first last : ℤ) (h : first ≤ last) :
    (binStarts b first last).head? = some first := by
  rw [binStarts, if_pos h]
  rfl

/-- When `last - first` is a multiple of the bin width (as it always is
for the two bin-aligned loop bounds of `event_rate`), the loop's final
entry is exactly `last`. -/
theorem binStarts_getLast (b : TimeBin) (first last : ℤ) (h : first ≤ last)
    (hdvd : binMillis b ∣ last - first) :
    (binStarts b first last).getLast? = some last := by
  have hB := binMillis_pos b
  rw [binStarts, if_pos h]
  by_cases h2 : first + binMillis b ≤ last
  · have hrec := binStarts_getLast b (first + binMillis b) last h2 (by
      obtain ⟨k, hk⟩ := hdvd
      exact ⟨k - 1, by linarith⟩)
    rcases hrest : binStarts b (first + binMillis b) last with _ | ⟨r, rt⟩
    · rw [hrest] at hrec
      simp at hrec
    · rw [hrest] at hrec
      rw [List.getLast?_cons_cons]
      exact hrec
  · have hlf : last = first := by
      obtain ⟨k, hk⟩ := hdvd
      have hk0 : k = 0 := by
        rcases lt_trichotomy k 0 with hneg | rfl | hpos
        · nlinarith
        · rfl
        · nlinarith
      rw [hk0, mul_zero] at hk
      omega
    rw [binStarts, if_neg h2]
    rw [hlf]
    rfl
termination_by (last + 1 - first).toNat
decreasing_by
  have := binMillis_pos b
  omega

/-- `sortByTs` really sorts by timestamp. -/
theorem sortByTs_pairwise (events : List Event) :
    List.Pairwise (fun a b : Event => a.timestamp ≤ b.timestamp) (sortByTs events) := by
  have h := @List.sorted_mergeSort Event
    (fun a b : Event => decide (a.timestamp ≤ b.timestamp))
    (fun a b c hab hbc => by
      simp only [decide_eq_true_eq] at hab hbc ⊢
      exact le_trans hab hbc)
    (fun a b => by
      simp only [Bool.or_eq_true, decide_eq_true_eq]
      exact le_total a.timestamp b.timestamp)
    events
  exact h.imp fun hab => by simpa using hab

/-- In a timestamp-sorted list the head has the least timestamp. -/
theorem pairwise_headI_le (l : List Event)
    (h : List.Pairwise (fun a b : Event => a.timestamp ≤ b.timestamp) l) :
    ∀ x ∈ l, l.headI.timestamp ≤ x.timestamp := by
  intro x hx
  rcases l with _ | ⟨a, t⟩
  · exact absurd hx (List.not_mem_nil x)
  · rcases List.mem_cons.mp hx with rfl | hxt
    · exact le_refl _
    · exact (List.pairwise_cons.mp h).1 x hxt

/-- In a timestamp-sorted list the last element has the greatest
timestamp. -/
theorem pairwise_le_getLastI (l : List Event)
    (h : List.Pairwise (fun a b : Event => a.timestamp ≤ b.timestamp) l) :
    ∀ x ∈ l, x.timestamp ≤ l.getLastI.timestamp := by
  induction l with
  | nil => intro x hx; exact absurd hx (List.not_mem_nil x)
  | cons a t ih =>
    intro x hx
    rcases t with _ | ⟨b, u⟩
    · rcases List.mem_cons.mp hx with rfl | hxt
      · exact le_refl _
      · exact absurd hxt (List.not_mem_nil x)
    · have hgl : (a :: b :: u).getLastI = (b :: u).getLastI := by
        simp [List.getLastI_eq_getLast?]
      rw [hgl]
      obtain ⟨hrel, hpw⟩ := List.pairwise_cons.mp h
      rcases List.mem_cons.mp hx with rfl | hxt
      · have hlast_mem : (b :: u).getLastI ∈ b :: u := by
          rw [List.getLastI_eq_getLast?, List.getLast?_eq_getLast _ (by simp)]
          exact List.getLast_mem _
        exact hrel _ hlast_mem
      · exact ih hpw x hxt

/-- Splitting a pointwise sum of naturals over a mapped list. -/
theorem sum_map_add_nat {α : Type} (l : List α) (g h : α → ℕ) :
    (l.map fun x => g x + h x).sum = (l.map g).sum + (l.map h).sum := by
  induction l with
  | nil => rfl
  | cons a t ih =>
    simp only [List.map_cons, List.sum_cons, ih]
    omega

/-- An indicator sum over a list not containing the value is zero. -/
theorem sum_indicator_zero (S : List ℤ) (a : ℤ) (ha : a ∉ S) :
    (S.map fun s => if a = s then (1 : ℕ) else 0).sum = 0 := by
  induction S with
  | nil => rfl
  | cons s t ih =>
    simp only [List.map_cons, List.sum_cons]
    have hne : a ≠ s := fun h => ha (h ▸ List.mem_cons_self s t)
    rw [if_neg hne, ih fun h => ha (List.mem_cons_of_mem s h)]

/-- An indicator sum over a duplicate-free list containing the value is
one. -/
theorem sum_indicator_one (S : List ℤ) (a : ℤ) (hnd : S.Nodup) (ha : a ∈ S) :
    (S.map fun s => if a = s then (1 : ℕ) else 0).sum = 1 := by
  induction S with
  | nil => exact absurd ha (List.not_mem_nil a)
  | cons s t ih =>
    simp only [List.map_cons, List.sum_cons]
    obtain ⟨hnotmem, hndt⟩ := List.nodup_cons.mp hnd
    rcases List.mem_cons.mp ha with rfl | hat
    · rw [if_pos rfl, sum_indicator_zero t a hnotmem]
    · have hne : a ≠ s := fun h => hnotmem (h ▸ hat)
      rw [if_neg hne, ih hndt hat]

/-- Summing, over a duplicate-free set of keys covering the image of
`f`, the number of elements mapped to each key gives the total number
of elements. -/
theorem sum_countP_eq_length (S : List ℤ) (f : Event → ℤ) (l : List Event)
    (hnd : S.Nodup) (hmem : ∀ e ∈ l, f e ∈ S) :
    (S.map fun s => l.countP fun e => f e = s).sum = l.length := by
  induction l with
  | nil => simp
  | cons e t ih =>
    simp only [List.countP_cons, decide_eq_true_eq]
    have hsplit : (S.map fun s => (t.countP fun e' => f e' = s) +
        if f e = s then 1 else 0).sum =
        (S.map fun s => t.countP fun e' => f e' = s).sum +
          (S.map fun s => if f e = s then (1 : ℕ) else 0).sum :=
      sum_map_add_nat S _ _
    have hind : (S.map fun s => if f e = s then (1 : ℕ) else 0).sum = 1 :=
      sum_indicator_one S (f e) hnd (hmem e (List.mem_cons_self e t))
    have ht : ∀ e' ∈ t, f e' ∈ S := fun e' he' => hmem e' (List.mem_cons_of_mem e he')
    calc (S.map fun s => (t.countP fun e' => f e' = s) + if f e = s then 1 else 0).sum
        = t.length + 1 := by rw [hsplit, ih ht, hind]
      _ = (e :: t).length := by simp

/-- C4: for every non-empty event slice and every bin granularity, the
bin sequence returned by `event_rate` is contiguous — consecutive bins'
start values differ by exactly the bin width, the first bin is the
earliest event's bin and the last bin is the latest event's bin (with
zero-count bins included in between) — and the bin counts sum to the
number of input events. -/
theorem event_rate_spec (events : List Event) (bin_size : TimeBin)
    (hne : events ≠ []) :
    List.Chain' (fun p q => q.start = p.start + binMillis bin_size)
      (event_rate events bin_size) ∧
    (event_rate events bin_size).head?.map TimeBinCount.start =
      some (eventBin bin_size (sortByTs events).headI) ∧
    (event_rate events bin_size).getLast?.map TimeBinCount.start =
      some (eventBin bin_size (sortByTs events).getLastI) ∧
    ((event_rate events bin_size).map TimeBinCount.count).sum = events.length := by
  have hB := binMillis_pos bin_size
  have hperm : (sortByTs events).Perm events := List.mergeSort_perm events _
  have hsne : sortByTs events ≠ [] := by
    intro h
    have := hperm.length_eq
    rw [h] at this
    exact hne (List.length_eq_zero.mp this.symm)
  have hpw := sortByTs_pairwise events
  have hlast_mem : (sortByTs events).getLastI ∈ sortByTs events := by
    rw [List.getLastI_eq_getLast?, List.getLast?_eq_getLast _ hsne]
    exact List.getLast_mem _
  have hhl : (sortByTs events).headI.timestamp ≤ (sortByTs events).getLastI.timestamp :=
    pairwise_headI_le _ hpw _ hlast_mem
  have hq : ((sortByTs events).headI.timestamp.tdiv (binMillis bin_size)) ≤
      ((sortByTs events).getLastI.timestamp.tdiv (binMillis bin_size)) :=
    tdiv_le_tdiv_of_le _ _ _ hB hhl
  have hFBLB : ((sortByTs events).headI.timestamp.tdiv (binMillis bin_size)) *
      binMillis bin_size ≤
      ((sortByTs events).getLastI.timestamp.tdiv (binMillis bin_size)) *
      binMillis bin_size :=
    mul_le_mul_of_nonneg_right hq (le_of_lt hB)
  have hunfold : event_rate events bin_size =
      (binStarts bin_size
        (((sortByTs events).headI.timestamp.tdiv (binMillis bin_size)) * binMillis bin_size)
        (((sortByTs events).getLastI.timestamp.tdiv (binMillis bin_size)) *
          binMillis bin_size)).map
        fun bin_start =>
          { start := bin_start, stop := bin_start + binMillis bin_size,
            count := (sortByTs events).countP fun e => eventBin bin_size e = bin_start } := by
    rw [event_rate, if_neg (by simpa using hne)]
  refine ⟨?_, ?_, ?_, ?_⟩
  · rw [hunfold, List.chain'_map]
    exact (binStarts_chain bin_size _ _).imp fun x y hxy => by simp [hxy]
  · rw [hunfold, List.head?_map, binStarts_head _ _ _ hFBLB]
    rfl
  · rw [hunfold, List.getLast?_map, binStarts_getLast _ _ _ hFBLB
      ⟨((sortByTs events).getLastI.timestamp.tdiv (binMillis bin_size)) -
        ((sortByTs events).headI.timestamp.tdiv (binMillis bin_size)), by ring⟩]
    rfl
  · rw [hunfold, List.map_map]
    have hcomp : (TimeBinCount.count ∘ fun bin_start =>
        { start := bin_start, stop := bin_start + binMillis bin_size,
          count := (sortByTs events).countP fun e => eventBin bin_size e = bin_start }) =
        fun bin_start => (sortByTs events).countP fun e => eventBin bin_size e = bin_start :=
      rfl
    rw [hcomp, sum_countP_eq_length _ _ _ (binStarts_nodup _ _ _) ?memo]
    · exact hperm.length_eq
    · intro e he
      rw [mem_binStarts]
      refine ⟨?_, ?_, ?_⟩
      · exact mul_le_mul_of_nonneg_right
          (tdiv_le_tdiv_of_le _ _ _ hB (pairwise_headI_le _ hpw e he)) (le_of_lt hB)
      · exact mul_le_mul_of_nonneg_right
          (tdiv_le_tdiv_of_le _ _ _ hB (pairwise_le_getLastI _ hpw e he)) (le_of_lt hB)
      · exact ⟨(e.timestamp.tdiv (binMillis bin_size)) -
          ((sortByTs events).headI.timestamp.tdiv (binMillis bin_size)), by
            rw [eventBin]; ring⟩

/-- C4 witness: `event_rate` applied to the spec's own example — events
at 10:00, 10:30 and 11:15 (relative to a midnight epoch) with hourly
bins. -/
theorem event_rate_spec_witness :
    [({ location := Location.new 0 0, timestamp := 36000000 } : Event),
      { location := Location.new 0 0, timestamp := 37800000 },
      { location := Location.new 0 0, timestamp := 40500000 }] ≠ [] ∧
    ((event_rate
      [({ location := Location.new 0 0, timestamp := 36000000 } : Event),
        { location := Location.new 0 0, timestamp := 37800000 },
        { location := Location.new 0 0, timestamp := 40500000 }] TimeBin.hour).map
          TimeBinCount.count).sum = 3 :=
  ⟨by simp, (event_rate_spec
    [({ location := Location.new 0 0, timestamp := 36000000 } : Event),
      { location := Location.new 0 0, timestamp := 37800000 },
      { location := Location.new 0 0, timestamp := 40500000 }] TimeBin.hour
    (by simp)).2.2.2⟩

/-! ## Burst detection (`src/analysis/temporal_metrics.rs` lines 296-336) -/

/-- Two time ranges overlap when they share an interval of positive
length (the repository's own overlap notion: `temporal_similarity`
treats `overlap_start >= overlap_end` as "no overlap"). -/
def rangesOverlap (r1 r2 : TimeRange) : Prop :=
  max r1.start r2.start < min r1.stop r2.stop

/-- The `while i < timestamps.len()` loop of `detect_bursts`
(temporal_metrics.rs lines 312-333).  `i` strictly increases in every
iteration (in the emit branch by `count ≥ min_events ≥ 1`), so the loop
runs at most `timestamps.length` times; `fuel` bounds the remaining
iterations and the wrapper passes `timestamps.length`
(see `burstLoop_fuel_irrel`). -/
def burstLoop (ts : List ℤ) (window_millis : ℤ) (min_events : ℕ) :
    ℕ → ℕ → List TimeRange
  | 0, _ => []
  | fuel + 1, i =>
    if i < ts.length then
      let count := ((ts.drop i).takeWhile fun t => t < ts.getD i 0 + window_millis).length
      if count ≥ min_events then
        { start := ts.getD i 0, stop := ts.getD (i + count - 1) 0 } ::
          burstLoop ts window_millis min_events fuel (i + count)
      else burstLoop ts window_millis min_events fuel (i + 1)
    else []

/-- Any fuel of at least `ts.length - i` yields the same result (for
`min_events ≥ 1`, as guaranteed by the wrapper's guard), so the
embedding with fuel `ts.length` agrees with the Rust `while` loop. -/
theorem burstLoop_fuel_irrel (ts : List ℤ) (window_millis : ℤ) (min_events : ℕ)
    (hme : 1 ≤ min_events) :
    ∀ fuel1 fuel2 i, ts.length - i ≤ fuel1 → ts.length - i ≤ fuel2 →
      burstLoop ts window_millis min_events fuel1 i =
        burstLoop ts window_millis min_events fuel2 i := by
  intro fuel1
  induction fuel1 using Nat.strong_induction_on with
  | _ fuel1 ih =>
    intro fuel2 i h1 h2
    match fuel1, fuel2 with
    | 0, 0 => rfl
    | 0, fuel2 + 1 =>
      have : ¬ i < ts.length := by omega
      simp only [burstLoop, this, if_false]
    | fuel1 + 1, 0 =>
      have : ¬ i < ts.length := by omega
      simp only [burstLoop, this, if_false]
    | fuel1 + 1, fuel2 + 1 =>
      simp only [burstLoop]
      by_cases hlt : i < ts.length
      · simp only [hlt, if_true]
        by_cases hcnt : ((ts.drop i).takeWhile fun t => t < ts.getD i 0 + window_millis).length ≥
            min_events
        · simp only [hcnt, if_true]
          rw [ih fuel1 (by omega) fuel2
            (i + ((ts.drop i).takeWhile fun t => t < ts.getD i 0 + window_millis).length)
            (by omega) (by omega)]
        · simp only [hcnt, if_false]
          exact ih fuel1 (by omega) fuel2 (i + 1) (by omega) (by omega)
      · simp only [hlt, if_false]

/-- `detect_bursts` (temporal_metrics.rs lines 296-336).  The Rust
function converts `window_secs: f64` to `window_millis: i64` by
truncation before the scan; the embedding takes that integer directly
as the parameter. -/
def detect_bursts (events : List Event) (window_millis : ℤ) (min_events : ℕ) :
    List TimeRange :=
  if events.isEmpty ∨ min_events = 0 then []
  else
    let ts := (sortByTs events).map Event.timestamp
    burstLoop ts window_millis min_events ts.length 0

/-- In a sorted timestamp list, the value at a smaller index is at most
the value at a larger index. -/
theorem pairwise_getD_mono (ts : List ℤ) (h : List.Pairwise (· ≤ ·) ts)
    (j k : ℕ) (hjk : j ≤ k) (hk : k < ts.length) :
    ts.getD j 0 ≤ ts.getD k 0 := by
  rcases eq_or_lt_of_le hjk with rfl | hlt
  · exact le_refl _
  · rw [List.getD_eq_getElem ts 0 (by omega), List.getD_eq_getElem ts 0 hk]
    exact List.pairwise_iff_get.mp h ⟨j, by omega⟩ ⟨k, hk⟩ hlt

/-- Invariant of the burst-scan loop: every emitted range starts and
ends at a timestamp of the (sorted) input at an index not before the
scan position, and successive emitted ranges are separated (each ends
no later than the next begins). -/
theorem burstLoop_struct (ts : List ℤ) (window_millis : ℤ) (min_events : ℕ)
    (hme : 1 ≤ min_events) (hsorted : List.Pairwise (· ≤ ·) ts) :
    ∀ fuel i,
      List.Pairwise (fun r1 r2 => r1.stop ≤ r2.start)
        (burstLoop ts window_millis min_events fuel i) ∧
      ∀ r ∈ burstLoop ts window_millis min_events fuel i,
        (∃ j, i ≤ j ∧ j < ts.length ∧ r.start = ts.getD j 0) ∧
        (∃ k, i ≤ k ∧ k < ts.length ∧ r.stop = ts.getD k 0) := by
  intro fuel
  induction fuel with
  | zero =>
    intro i
    simp [burstLoop]
  | succ fuel ih =>
    intro i
    rw [burstLoop]
    by_cases hlt : i < ts.length
    · simp only [hlt, if_true]
      by_cases hcnt : ((ts.drop i).takeWhile fun t => t < ts.getD i 0 + window_millis).length ≥
          min_events
      · simp only [hcnt, if_true]
        have hcle : ((ts.drop i).takeWhile fun t => t < ts.getD i 0 + window_millis).length ≤
            ts.length - i := by
          have := (List.takeWhile_sublist
            (fun t => decide (t < ts.getD i 0 + window_millis))
            (l := ts.drop i)).length_le
          simp only [List.length_drop] at this
          exact this
        obtain ⟨ihpw, ihmem⟩ := ih
          (i + ((ts.drop i).takeWhile fun t => t < ts.getD i 0 + window_millis).length)
        constructor
        · rw [List.pairwise_cons]
          refine ⟨?_, ihpw⟩
          intro r' hr'
          obtain ⟨⟨j, hj1, hj2, hj3⟩, _⟩ := ihmem r' hr'
          simp only
          rw [hj3]
          exact pairwise_getD_mono ts hsorted _ j (by omega) hj2
        · intro r hr
          rcases List.mem_cons.mp hr with rfl | hr
          · refine ⟨⟨i, le_refl i, hlt, rfl⟩, ⟨i +
              ((ts.drop i).takeWhile fun t => t < ts.getD i 0 + window_millis).length - 1,
              by omega, by omega, rfl⟩⟩
          · obtain ⟨⟨j, hj1, hj2, hj3⟩, ⟨k, hk1, hk2, hk3⟩⟩ := ihmem r hr
            exact ⟨⟨j, by omega, hj2, hj3⟩, ⟨k, by omega, hk2, hk3⟩⟩
      · simp only [hcnt, if_false]
        obtain ⟨ihpw, ihmem⟩ := ih (i + 1)
        refine ⟨ihpw, ?_⟩
        intro r hr
        obtain ⟨⟨j, hj1, hj2, hj3⟩, ⟨k, hk1, hk2, hk3⟩⟩ := ihmem r hr
        exact ⟨⟨j, by omega, hj2, hj3⟩, ⟨k, by omega, hk2, hk3⟩⟩
    · simp [hlt]

/-- C8: every TimeRange emitted by `detect_bursts` starts and ends at
an actual event timestamp, and no two emitted burst ranges overlap. -/
theorem detect_bursts_spec (events : List Event) (window_millis : ℤ)
    (min_events : ℕ) :
    (∀ r ∈ detect_bursts events window_millis min_events,
      r.start ∈ events.map Event.timestamp ∧ r.stop ∈ events.map Event.timestamp) ∧
    List.Pairwise (fun r1 r2 => ¬ rangesOverlap r1 r2)
      (detect_bursts events window_millis min_events) := by
  rw [detect_bursts]
  by_cases hguard : events.isEmpty ∨ min_events = 0
  · rw [if_pos hguard]
    simp
  · rw [if_neg hguard]
    push_neg at hguard
    obtain ⟨hne, hme⟩ := hguard
    have hsorted : List.Pairwise (· ≤ ·) ((sortByTs events).map Event.timestamp) :=
      List.pairwise_map.mpr (sortByTs_pairwise events)
    obtain ⟨hpw, hmem⟩ := burstLoop_struct ((sortByTs events).map Event.timestamp)
      window_millis min_events (by omega) hsorted
      ((sortByTs events).map Event.timestamp).length 0
    have hts_perm : ((sortByTs events).map Event.timestamp).Perm
        (events.map Event.timestamp) := (List.mergeSort_perm events _).map Event.timestamp
    constructor
    · intro r hr
      obtain ⟨⟨j, _, hj2, hj3⟩, ⟨k, _, hk2, hk3⟩⟩ := hmem r hr
      constructor
      · rw [hj3, List.getD_eq_getElem _ 0 hj2]
        exact hts_perm.mem_iff.mp (List.getElem_mem hj2)
      · rw [hk3, List.getD_eq_getElem _ 0 hk2]
        exact hts_perm.mem_iff.mp (List.getElem_mem hk2)
    · refine hpw.imp fun {r1 r2} hle => ?_
      rw [rangesOverlap, not_lt]
      exact le_trans (min_le_left _ _) (le_trans hle (le_max_right _ _))

/-- C8 witness: the theorem applied to three closely spaced events and
one distant event, a 5-minute window and `min_events = 3`, where the
single detected burst spans the first and third timestamps. -/
theorem detect_bursts_spec_witness :
    ({ start := 0, stop := 120000 } : TimeRange) ∈
      detect_bursts
        [({ location := Location.new 0 0, timestamp := 0 } : Event),
          { location := Location.new 0 0, timestamp := 60000 },
          { location := Location.new 0 0, timestamp := 120000 },
          { location := Location.new 0 0, timestamp := 18000000 }] 300000 3 ∧
    (0 : ℤ) ∈
      ([({ location := Location.new 0 0, timestamp := 0 } : Event),
        { location := Location.new 0 0, timestamp := 60000 },
        { location := Location.new 0 0, timestamp := 120000 },
        { location := Location.new 0 0, timestamp := 18000000 }].map Event.timestamp) := by
  have hmem : ({ start := 0, stop := 120000 } : TimeRange) ∈
      detect_bursts
        [({ location := Location.new 0 0, timestamp := 0 } : Event),
          { location := Location.new 0 0, timestamp := 60000 },
          { location := Location.new 0 0, timestamp := 120000 },
          { location := Location.new 0 0, timestamp := 18000000 }] 300000 3 := by
    norm_num [detect_bursts, burstLoop, sortByTs, List.mergeSort, List.merge, List.takeWhile]
  refine ⟨hmem, ?_⟩
  have h := (detect_bursts_spec
    [({ location := Location.new 0 0, timestamp := 0 } : Event),
      { location := Location.new 0 0, timestamp := 60000 },
      { location := Location.new 0 0, timestamp := 120000 },
      { location := Location.new 0 0, timestamp := 18000000 }] 300000 3).1
    { start := 0, stop := 120000 } hmem
  exact h.1

/-! ## Clustering (`src/analysis/clustering.rs`) -/

/-- Minimum of a list of rationals (the Rust code folds `f64::min`
starting from `f64::MAX`; for a non-empty list this is the least
element, which is the fold below). -/
def qListMin : List ℚ → ℚ
  | [] => 0
  | x :: t => t.foldl min x

/-- Maximum of a list of rationals (Rust folds `f64::max` from
`f64::MIN`). -/
def qListMax : List ℚ → ℚ
  | [] => 0
  | x :: t => t.foldl max x

/-- `Cluster` (clustering.rs lines 10-21). -/
structure Cluster where
  id : ℕ
  event_indices : List ℕ
  centroid : Location
  bounds : GeoBounds
deriving DecidableEq, Repr

instance : Inhabited Cluster :=
  ⟨⟨0, [], Location.new 0 0, ⟨0, 0, 0, 0⟩⟩⟩

/-- `ClusteringResult` (clustering.rs lines 35-44). -/
structure ClusteringResult where
  clusters : List Cluster
  noise : List ℕ
  labels : List ℤ
deriving DecidableEq, Repr

/-- `compute_bounds` (clustering.rs lines 441-459): bounding box of the
event locations (`GeoBounds::new(0,0,0,0)` for an empty input). -/
def compute_bounds (events : List Event) : GeoBounds :=
  if events.isEmpty then ⟨0, 0, 0, 0⟩
  else
    { min_lat := qListMin (events.map fun e => e.location.lat)
      max_lat := qListMax (events.map fun e => e.location.lat)
      min_lon := qListMin (events.map fun e => e.location.lon)
      max_lon := qListMax (events.map fun e => e.location.lon) }

/-- `DBSCAN::range_query` (clustering.rs lines 156-167): the indices of
all locations other than `point_idx` within `eps` of it (the Rust
`enumerate().filter(..)` over the location slice). -/
def range_query (hav : ℚ → ℚ → ℚ → ℚ → ℚ) (eps : ℚ) (locs : List Location)
    (point_idx : ℕ) : List ℕ :=
  (List.range locs.length).filter fun i =>
    i ≠ point_idx ∧
      hav (locs.getD point_idx default).lat (locs.getD point_idx default).lon
        (locs.getD i default).lat (locs.getD i default).lon ≤ eps

/-- The `while let Some(current_idx) = seeds.pop()` loop of
`DBSCAN::expand_cluster` (clustering.rs lines 182-203).  The Rust seed
list is a `Vec` used as a stack (`pop` takes the *last* element,
`extend` appends); the embedding keeps the stack in top-first order, so
popping is taking the head and `seeds.extend(neighbors)` is
`neighbors.reverse ++ rest`.  The `processed` hash set is a list used
only for membership.  Every iteration pops one entry; entries are
pushed at most once per newly processed index (at most
`locs.length` of them, `locs.length` entries each) on top of the at
most `locs.length` initial seeds, so
`locs.length * locs.length + locs.length + 1` iterations always
suffice; `fuel` bounds the remaining iterations. -/
def expandLoop (hav : ℚ → ℚ → ℚ → ℚ → ℚ) (eps : ℚ) (min_points : ℕ)
    (locs : List Location) (cluster_id : ℤ) :
    ℕ → List ℕ → List ℕ → List ℤ → List ℤ
  | 0, _, _, labels => labels
  | _ + 1, [], _, labels => labels
  | fuel + 1, current :: rest, processed, labels =>
    if current ∈ processed then
      expandLoop hav eps min_points locs cluster_id fuel rest processed labels
    else
      let processed' := current :: processed
      let labels1 := if labels.getD current 0 = -2 then labels.set current cluster_id
        else labels
      if labels1.getD current 0 ≠ -1 then
        expandLoop hav eps min_points locs cluster_id fuel rest processed' labels1
      else
        let labels2 := labels1.set current cluster_id
        let neighbors := range_query hav eps locs current
        let seeds' := if neighbors.length ≥ min_points then neighbors.reverse ++ rest
          else rest
        expandLoop hav eps min_points locs cluster_id fuel seeds' processed' labels2

/-- `DBSCAN::expand_cluster` (clustering.rs lines 169-204): label the
seed, then run the stack loop over the seed's neighbours. -/
def expand_cluster (hav : ℚ → ℚ → ℚ → ℚ → ℚ) (eps : ℚ) (min_points : ℕ)
    (locs : List Location) (seed_idx : ℕ) (seed_neighbors : List ℕ)
    (cluster_id : ℤ) (labels : List ℤ) : List ℤ :=
  expandLoop hav eps min_points locs cluster_id
    (locs.length * locs.length + locs.length + 1) seed_neighbors.reverse []
    (labels.set seed_idx cluster_id)

/-- `DBSCAN::build_result` (clustering.rs lines 206-250): group indices
by label into clusters `0 .. max_label`, and collect all negatively
labelled indices as noise. -/
def build_result (events : List Event) (labels : List ℤ) : ClusteringResult :=
  let max_label := labels.foldl max (-1)
  let num_clusters := if 0 ≤ max_label then (max_label + 1).toNat else 0
  let clusters := (List.range num_clusters).map fun (cluster_id : ℕ) =>
    let event_indices := (List.range labels.length).filter fun i =>
      labels.getD i 0 = (cluster_id : ℤ)
    let cluster_events := event_indices.map fun i => events.getD i default
    ({ id := cluster_id, event_indices := event_indices,
       centroid := compute_centroid cluster_events,
       bounds := compute_bounds cluster_events } : Cluster)
  let noise := (List.range labels.length).filter fun i => labels.getD i 0 < 0
  ⟨clusters, noise, labels⟩

/-- The label-computing part of `DBSCAN::cluster` (clustering.rs lines
122-151): the main scan over all indices (`-1` = unvisited, `-2` =
provisional noise, `≥ 0` = cluster id) followed by the `-2 → -1`
conversion. -/
def dbscan_labels (hav : ℚ → ℚ → ℚ → ℚ → ℚ) (eps : ℚ) (min_points : ℕ)
    (events : List Event) : List ℤ :=
  let locs := events.map fun e => e.location
  let final := (List.range events.length).foldl
    (fun (st : List ℤ × ℤ) i =>
      if st.1.getD i 0 ≠ -1 then st
      else
        let neighbors := range_query hav eps locs i
        if neighbors.length < min_points then (st.1.set i (-2), st.2)
        else (expand_cluster hav eps min_points locs i neighbors st.2 st.1, st.2 + 1))
    (List.replicate events.length (-1), 0)
  final.1.map fun l => if l = -2 then -1 else l

/-- `DBSCAN::cluster` (clustering.rs lines 113-154): empty-input guard,
label scan, then `build_result`. -/
def dbscan_cluster (hav : ℚ → ℚ → ℚ → ℚ → ℚ) (eps : ℚ) (min_points : ℕ)
    (events : List Event) : ClusteringResult :=
  if events.length = 0 then ⟨[], [], []⟩
  else build_result events (dbscan_labels hav eps min_points events)

/-- `expandLoop` preserves the length of the label array. -/
theorem expandLoop_length (hav : ℚ → ℚ → ℚ → ℚ → ℚ) (eps : ℚ) (min_points : ℕ)
    (locs : List Location) (cluster_id : ℤ) :
    ∀ fuel seeds processed labels,
      (expandLoop hav eps min_points locs cluster_id fuel seeds processed labels).length =
        labels.length := by
  intro fuel
  induction fuel with
  | zero => intro seeds processed labels; rfl
  | succ fuel ih =>
    intro seeds processed labels
    match seeds with
    | [] => rfl
    | current :: rest =>
      rw [expandLoop]
      by_cases hp : current ∈ processed
      · rw [if_pos hp, ih]
      · rw [if_neg hp]
        by_cases h1 : (if labels.getD current 0 = -2 then labels.set current cluster_id
            else labels).getD current 0 ≠ -1
        · rw [if_pos h1, ih]
          split <;> simp [List.length_set]
        · rw [if_neg h1, ih]
          split <;> simp [List.length_set]

/-- `expandLoop` only ever writes `cluster_id` into the label array, so
for a nonnegative cluster id it preserves the invariant that every
label is `-1`, `-2`, or nonnegative. -/
theorem expandLoop_values (hav : ℚ → ℚ → ℚ → ℚ → ℚ) (eps : ℚ) (min_points : ℕ)
    (locs : List Location) (cluster_id : ℤ) (hcid : 0 ≤ cluster_id) :
    ∀ fuel seeds processed labels,
      (∀ x ∈ labels, x = -1 ∨ x = -2 ∨ 0 ≤ x) →
      ∀ x ∈ expandLoop hav eps min_points locs cluster_id fuel seeds processed labels,
        x = -1 ∨ x = -2 ∨ 0 ≤ x := by
  intro fuel
  induction fuel with
  | zero => intro seeds processed labels hOK; exact hOK
  | succ fuel ih =>
    intro seeds processed labels hOK
    match seeds with
    | [] => exact hOK
    | current :: rest =>
      rw [expandLoop]
      have hset : ∀ (l : List ℤ), (∀ x ∈ l, x = -1 ∨ x = -2 ∨ 0 ≤ x) →
          ∀ x ∈ l.set current cluster_id, x = -1 ∨ x = -2 ∨ 0 ≤ x := by
        intro l hl x hx
        rcases List.mem_or_eq_of_mem_set hx with hx | rfl
        · exact hl x hx
        · exact Or.inr (Or.inr hcid)
      set labels1 := if labels.getD current 0 = -2 then labels.set current cluster_id
        else labels with hl1
      have hOK1 : ∀ x ∈ labels1, x = -1 ∨ x = -2 ∨ 0 ≤ x := by
        rw [hl1]
        split
        · exact hset labels hOK
        · exact hOK
      by_cases hp : current ∈ processed
      · rw [if_pos hp]
        exact ih rest processed labels hOK
      · rw [if_neg hp]
        by_cases h1 : labels1.getD current 0 ≠ -1
        · rw [if_pos h1]
          exact ih rest _ _ hOK1
        · rw [if_neg h1]
          dsimp only
          split <;> exact ih _ _ _ (hset labels1 hOK1)

/-- The main DBSCAN scan keeps every label equal to `-1`, `-2`, or a
nonnegative cluster id, keeps the label array length fixed, and keeps
the running cluster counter nonnegative. -/
theorem dbscanFold_inv (hav : ℚ → ℚ → ℚ → ℚ → ℚ) (eps : ℚ) (min_points : ℕ)
    (locs : List Location) :
    ∀ (l : List ℕ) (st : List ℤ × ℤ),
      (∀ x ∈ st.1, x = -1 ∨ x = -2 ∨ 0 ≤ x) → 0 ≤ st.2 →
      ((l.foldl (fun (st : List ℤ × ℤ) i =>
        if st.1.getD i 0 ≠ -1 then st
        else
          let neighbors := range_query hav eps locs i
          if neighbors.length < min_points then (st.1.set i (-2), st.2)
          else (expand_cluster hav eps min_points locs i neighbors st.2 st.1, st.2 + 1)) st).1.length
          = st.1.length ∧
       (∀ x ∈ (l.foldl (fun (st : List ℤ × ℤ) i =>
        if st.1.getD i 0 ≠ -1 then st
        else
          let neighbors := range_query hav eps locs i
          if neighbors.length < min_points then (st.1.set i (-2), st.2)
          else (expand_cluster hav eps min_points locs i neighbors st.2 st.1, st.2 + 1)) st).1,
          x = -1 ∨ x = -2 ∨ 0 ≤ x)) := by
  intro l
  induction l with
  | nil => intro st hOK _; exact ⟨rfl, hOK⟩
  | cons i t ih =>
    intro st hOK hcnt
    simp only [List.foldl_cons]
    by_cases hvis : st.1.getD i 0 ≠ -1
    · rw [if_pos hvis]
      exact ih st hOK hcnt
    · rw [if_neg hvis]
      by_cases hmin : (range_query hav eps locs i).length < min_points
      · simp only [hmin, if_true]
        have hOK' : ∀ x ∈ st.1.set i (-2), x = -1 ∨ x = -2 ∨ 0 ≤ x := by
          intro x hx
          rcases List.mem_or_eq_of_mem_set hx with hx | rfl
          · exact hOK x hx
          · exact Or.inr (Or.inl rfl)
        obtain ⟨hlen, hvals⟩ := ih (st.1.set i (-2), st.2) hOK' hcnt
        exact ⟨by rw [hlen, List.length_set], hvals⟩
      · simp only [hmin, if_false]
        have hOKexp : ∀ x ∈ expand_cluster hav eps min_points locs i
            (range_query hav eps locs i) st.2 st.1, x = -1 ∨ x = -2 ∨ 0 ≤ x := by
          rw [expand_cluster]
          apply expandLoop_values hav eps min_points locs st.2 hcnt
          intro x hx
          rcases List.mem_or_eq_of_mem_set hx with hx | rfl
          · exact hOK x hx
          · exact Or.inr (Or.inr hcnt)
        obtain ⟨hlen, hvals⟩ := ih (expand_cluster hav eps min_points locs i
          (range_query hav eps locs i) st.2 st.1, st.2 + 1) hOKexp (by omega)
        exact ⟨by rw [hlen, expand_cluster, expandLoop_length, List.length_set], hvals⟩

/-- The starting accumulator is a lower bound of a `max` fold. -/
theorem foldl_max_init_le (l : List ℤ) : ∀ a : ℤ, a ≤ l.foldl max a := by
  induction l with
  | nil => intro a; exact le_refl a
  | cons x t ih =>
    intro a
    simp only [List.foldl_cons]
    exact le_trans (le_max_left a x) (ih (max a x))

/-- Every element of a list is at most its `max` fold. -/
theorem mem_le_foldl_max (l : List ℤ) : ∀ (a : ℤ) (x : ℤ), x ∈ l → x ≤ l.foldl max a := by
  induction l with
  | nil => intro a x hx; exact absurd hx (List.not_mem_nil x)
  | cons y t ih =>
    intro a x hx
    simp only [List.foldl_cons]
    rcases List.mem_cons.mp hx with rfl | hx
    · exact le_trans (le_max_right a x) (foldl_max_init_le t (max a x))
    · exact ih (max a y) x hx

/-- The DBSCAN label array has one entry per event, each `-1` or a
nonnegative cluster id. -/
theorem dbscan_labels_inv (hav : ℚ → ℚ → ℚ → ℚ → ℚ) (eps : ℚ) (min_points : ℕ)
    (events : List Event) :
    (dbscan_labels hav eps min_points events).length = events.length ∧
    ∀ x ∈ dbscan_labels hav eps min_points events, x = -1 ∨ 0 ≤ x := by
  obtain ⟨hlen, hvals⟩ := dbscanFold_inv hav eps min_points
    (events.map fun e => e.location) (List.range events.length)
    (List.replicate events.length (-1), 0)
    (by
      intro x hx
      rw [List.eq_of_mem_replicate hx]
      exact Or.inl rfl)
    (le_refl 0)
  constructor
  · unfold dbscan_labels
    rw [List.length_map, hlen, List.length_replicate]
  · unfold dbscan_labels
    intro x hx
    rw [List.mem_map] at hx
    obtain ⟨y, hy, rfl⟩ := hx
    rcases hvals y hy with rfl | rfl | h
    · left; rfl
    · left; rfl
    · right
      rw [if_neg (by omega)]
      exact h

/-- C3: for every event slice of length `n`, the `ClusteringResult`
returned by `DBSCAN::cluster` has a labels array of length exactly `n`;
an index is in `noise` exactly when its label is `-1`, and in cluster
`c` exactly when its label is `c`; and every index `0..n` lies in
exactly one of {the `event_indices` of exactly one cluster, the noise
list}. -/
theorem dbscan_cluster_spec (hav : ℚ → ℚ → ℚ → ℚ → ℚ) (eps : ℚ) (min_points : ℕ)
    (events : List Event) :
    (dbscan_cluster hav eps min_points events).labels.length = events.length ∧
    ∀ i, i < events.length →
      (i ∈ (dbscan_cluster hav eps min_points events).noise ↔
        (dbscan_cluster hav eps min_points events).labels.getD i 0 = -1) ∧
      (∀ c, c < (dbscan_cluster hav eps min_points events).clusters.length →
        (i ∈ ((dbscan_cluster hav eps min_points events).clusters.getD c
            default).event_indices ↔
          (dbscan_cluster hav eps min_points events).labels.getD i 0 = (c : ℤ))) ∧
      ((i ∈ (dbscan_cluster hav eps min_points events).noise ∧
        ∀ c, c < (dbscan_cluster hav eps min_points events).clusters.length →
          i ∉ ((dbscan_cluster hav eps min_points events).clusters.getD c
            default).event_indices) ∨
       (i ∉ (dbscan_cluster hav eps min_points events).noise ∧
        ∃ c, c < (dbscan_cluster hav eps min_points events).clusters.length ∧
          i ∈ ((dbscan_cluster hav eps min_points events).clusters.getD c
            default).event_indices ∧
          ∀ c', c' < (dbscan_cluster hav eps min_points events).clusters.length →
            i ∈ ((dbscan_cluster hav eps min_points events).clusters.getD c'
              default).event_indices → c' = c)) := by
  by_cases hn : events.length = 0
  · rw [dbscan_cluster, if_pos hn]
    exact ⟨hn.symm, fun i hi => absurd hi (by omega)⟩
  · rw [dbscan_cluster, if_neg hn]
    obtain ⟨hLlen, hLvals⟩ := dbscan_labels_inv hav eps min_points events
    have hlabels : (build_result events (dbscan_labels hav eps min_points events)).labels =
        dbscan_labels hav eps min_points events := rfl
    have hnoise : ∀ i, i ∈ (build_result events
        (dbscan_labels hav eps min_points events)).noise ↔
        i < (dbscan_labels hav eps min_points events).length ∧
          (dbscan_labels hav eps min_points events).getD i 0 < 0 := by
      intro i
      show i ∈ (List.range _).filter _ ↔ _
      rw [List.mem_filter, List.mem_range]
      simp
    have hclen : (build_result events (dbscan_labels hav eps min_points events)).clusters.length =
        (if 0 ≤ (dbscan_labels hav eps min_points events).foldl max (-1) then
          ((dbscan_labels hav eps min_points events).foldl max (-1) + 1).toNat else 0) := by
      show ((List.range _).map _).length = _
      rw [List.length_map, List.length_range]
    have hcform : (build_result events (dbscan_labels hav eps min_points events)).clusters =
        (List.range (if 0 ≤ (dbscan_labels hav eps min_points events).foldl max (-1) then
          ((dbscan_labels hav eps min_points events).foldl max (-1) + 1).toNat else 0)).map
          (fun (cluster_id : ℕ) =>
            ({ id := cluster_id,
               event_indices := (List.range
                 (dbscan_labels hav eps min_points events).length).filter fun i =>
                   (dbscan_labels hav eps min_points events).getD i 0 = (cluster_id : ℤ),
               centroid := compute_centroid
                 (((List.range (dbscan_labels hav eps min_points events).length).filter fun i =>
                   (dbscan_labels hav eps min_points events).getD i 0 =
                     (cluster_id : ℤ)).map fun i => events.getD i default),
               bounds := compute_bounds
                 (((List.range (dbscan_labels hav eps min_points events).length).filter fun i =>
                   (dbscan_labels hav eps min_points events).getD i 0 =
                     (cluster_id : ℤ)).map fun i => events.getD i default) } : Cluster)) := rfl
    have hcidx : ∀ c, c < (build_result events
        (dbscan_labels hav eps min_points events)).clusters.length →
        ((build_result events (dbscan_labels hav eps min_points events)).clusters.getD c
            default).event_indices =
          (List.range (dbscan_labels hav eps min_points events).length).filter fun i =>
            (dbscan_labels hav eps min_points events).getD i 0 = (c : ℤ) := by
      intro c hc
      rw [List.getD_eq_getElem _ _ hc]
      rw [List.getElem_of_eq hcform hc]
      rw [List.getElem_map, List.getElem_range]
    have hmemidx : ∀ i c, i < events.length →
        (i ∈ ((List.range (dbscan_labels hav eps min_points events).length).filter fun j =>
          (dbscan_labels hav eps min_points events).getD j 0 = (c : ℤ)) ↔
          (dbscan_labels hav eps min_points events).getD i 0 = (c : ℤ)) := by
      intro i c hi
      rw [List.mem_filter, List.mem_range]
      constructor
      · intro ⟨_, h⟩
        simpa using h
      · intro h
        exact ⟨by omega, by simpa using h⟩
    refine ⟨by rw [hlabels, hLlen], ?_⟩
    intro i hi
    have hiL : i < (dbscan_labels hav eps min_points events).length := by omega
    have hmem : (dbscan_labels hav eps min_points events).getD i 0 ∈
        dbscan_labels hav eps min_points events := by
      rw [List.getD_eq_getElem _ _ hiL]
      exact List.getElem_mem hiL
    have hval := hLvals _ hmem
    have hp1 : i ∈ (build_result events (dbscan_labels hav eps min_points events)).noise ↔
        (dbscan_labels hav eps min_points events).getD i 0 = -1 := by
      rw [hnoise i]
      constructor
      · intro ⟨_, hlt⟩
        rcases hval with h | h
        · exact h
        · omega
      · intro h
        exact ⟨hiL, by omega⟩
    have hp2 : ∀ c, c < (build_result events
        (dbscan_labels hav eps min_points events)).clusters.length →
        (i ∈ ((build_result events (dbscan_labels hav eps min_points
            events)).clusters.getD c default).event_indices ↔
          (dbscan_labels hav eps min_points events).getD i 0 = (c : ℤ)) := by
      intro c hc
      rw [hcidx c hc]
      exact hmemidx i c hi
    refine ⟨hp1, hp2, ?_⟩
    rcases hval with hneg | hnonneg
    · left
      refine ⟨hp1.mpr hneg, ?_⟩
      intro c hc hmemc
      have := (hp2 c hc).mp hmemc
      omega
    · right
      have hle : (dbscan_labels hav eps min_points events).getD i 0 ≤
          (dbscan_labels hav eps min_points events).foldl max (-1) :=
        mem_le_foldl_max _ _ _ hmem
      have hmax0 : 0 ≤ (dbscan_labels hav eps min_points events).foldl max (-1) := by omega
      refine ⟨by rw [hp1]; omega, ((dbscan_labels hav eps min_points events).getD i 0).toNat,
        ?_, ?_, ?_⟩
      · rw [hclen, if_pos hmax0]
        omega
      · rw [hp2 _ (by rw [hclen, if_pos hmax0]; omega)]
        omega
      · intro c' hc' hmemc'
        have := (hp2 c' hc').mp hmemc'
        omega

/-- C3 witness: the theorem applied at the spec's own DBSCAN scenario —
three events within metres of each other plus one event far away, with
`eps = 1000 m` and `min_points = 2`; the far event (index 3) is noise
exactly when its label is `-1`. -/
theorem dbscan_cluster_spec_witness :
    3 < [({ location := Location.new 40 (-74), timestamp := 0 } : Event),
        { location := Location.new 40 (-74), timestamp := 1 },
        { location := Location.new 40 (-74), timestamp := 2 },
        { location := Location.new 50 (-80), timestamp := 3 }].length ∧
    (3 ∈ (dbscan_cluster havFar 1000 2
        [({ location := Location.new 40 (-74), timestamp := 0 } : Event),
          { location := Location.new 40 (-74), timestamp := 1 },
          { location := Location.new 40 (-74), timestamp := 2 },
          { location := Location.new 50 (-80), timestamp := 3 }]).noise ↔
      (dbscan_cluster havFar 1000 2
        [({ location := Location.new 40 (-74), timestamp := 0 } : Event),
          { location := Location.new 40 (-74), timestamp := 1 },
          { location := Location.new 40 (-74), timestamp := 2 },
          { location := Location.new 50 (-80), timestamp := 3 }]).labels.getD 3 0 = -1) :=
  ⟨by norm_num, ((dbscan_cluster_spec havFar 1000 2
    [({ location := Location.new 40 (-74), timestamp := 0 } : Event),
      { location := Location.new 40 (-74), timestamp := 1 },
      { location := Location.new 40 (-74), timestamp := 2 },
      { location := Location.new 50 (-80), timestamp := 3 }]).2 3 (by norm_num)).1⟩

/-- C10: the eps-neighbourhood computed by `DBSCAN::range_query` never
contains the queried index itself, and contains exactly indices of
*other* events within `eps`; consequently the core-point test
`neighbors.len() >= min_points` in `DBSCAN::cluster` counts only events
other than the queried point. -/
theorem range_query_spec (hav : ℚ → ℚ → ℚ → ℚ → ℚ) (eps : ℚ)
    (locs : List Location) (point_idx : ℕ) :
    point_idx ∉ range_query hav eps locs point_idx ∧
    ∀ j ∈ range_query hav eps locs point_idx, j ≠ point_idx ∧ j < locs.length ∧
      hav (locs.getD point_idx default).lat (locs.getD point_idx default).lon
        (locs.getD j default).lat (locs.getD j default).lon ≤ eps := by
  constructor
  · intro hmem
    rw [range_query, List.mem_filter] at hmem
    obtain ⟨_, hp⟩ := hmem
    simp at hp
  · intro j hj
    rw [range_query, List.mem_filter, List.mem_range] at hj
    obtain ⟨hlt, hp⟩ := hj
    simp only [decide_eq_true_eq] at hp
    exact ⟨hp.1, hlt, hp.2⟩

/-- C10 witness: the theorem applied at a concrete two-location slice;
index 0 is not its own neighbour. -/
theorem range_query_spec_witness :
    (0 : ℕ) ∉ range_query havZero 1000 [Location.new 0 0, Location.new 0 0] 0 :=
  (range_query_spec havZero 1000 [Location.new 0 0, Location.new 0 0] 0).1

/-! ## K-means (`src/analysis/clustering.rs` lines 253-439) -/

/-- `compute_centroid_from_locations` (clustering.rs lines 429-439):
planar arithmetic mean. -/
def compute_centroid_from_locations (locations : List Location) : Location :=
  if locations.isEmpty then Location.new 0 0
  else
    Location.new (((locations.map fun l => l.lat).sum) / locations.length)
      (((locations.map fun l => l.lon).sum) / locations.length)

/-- The nearest-centroid search of `KMeans::cluster` (clustering.rs
lines 333-344): fold over the centroids with index, keeping the first
strictly smaller distance (ties keep the lower index because the
comparison is a strict `<`).  The accumulator's `none` models the
`f64::MAX` initialisation: the first comparison `dist < f64::MAX`
always succeeds for a (finite) haversine distance. -/
def argminCentroid (hav : ℚ → ℚ → ℚ → ℚ → ℚ) (loc : Location)
    (centroids : List Location) : ℤ :=
  (centroids.enum.foldl
    (fun (acc : Option ℚ × ℤ) p =>
      match acc.1 with
      | none => (some (hav loc.lat loc.lon p.2.lat p.2.lon), (p.1 : ℤ))
      | some md =>
        if hav loc.lat loc.lon p.2.lat p.2.lon < md then
          (some (hav loc.lat loc.lon p.2.lat p.2.lon), (p.1 : ℤ))
        else acc)
    (none, 0)).2

/-- The locations assigned to cluster `c` (clustering.rs lines
350-355): `locations.iter().enumerate().filter(|(i,_)| labels[i] == c)`. -/
def clusterPoints (locs : List Location) (labels : List ℤ) (c : ℕ) : List Location :=
  ((locs.enum.filter fun p => labels.getD p.1 0 = (c : ℤ)).map fun p => p.2)

/-- The centroid-update step of `KMeans::cluster` (clustering.rs lines
347-374): every centroid whose cluster is empty is kept unchanged
(`continue`), every other centroid becomes the planar mean of its
assigned points; the step also reports convergence — every updated
centroid moved at most `tolerance` metres (`centroids.len() = k`, so
the source's `.take(k)` visits every centroid). -/
def kmeansUpdate (hav : ℚ → ℚ → ℚ → ℚ → ℚ) (tolerance : ℚ) (locs : List Location)
    (labels : List ℤ) (centroids : List Location) : List Location × Bool :=
  let newCentroids := centroids.enum.map fun p =>
    let pts := clusterPoints locs labels p.1
    if pts.isEmpty then p.2 else compute_centroid_from_locations pts
  let converged := centroids.enum.all fun p =>
    let pts := clusterPoints locs labels p.1
    pts.isEmpty ||
      hav p.2.lat p.2.lon (compute_centroid_from_locations pts).lat
        (compute_centroid_from_locations pts).lon ≤ tolerance
  (newCentroids, converged)

/-- The `for _ in 0..max_iterations` loop of `KMeans::cluster`
(clustering.rs lines 330-379): assign every point to its nearest
centroid, update the centroids, and stop early on convergence. -/
def kmeansLoop (hav : ℚ → ℚ → ℚ → ℚ → ℚ) (tolerance : ℚ) (locs : List Location) :
    ℕ → List Location → List ℤ → List Location × List ℤ
  | 0, centroids, labels => (centroids, labels)
  | m + 1, centroids, labels =>
    let labels' := locs.map fun loc => argminCentroid hav loc centroids
    let step := kmeansUpdate hav tolerance locs labels' centroids
    if step.2 then (step.1, labels')
    else kmeansLoop hav tolerance locs m step.1 labels'

/-- The result-building tail of `KMeans::cluster` (clustering.rs lines
381-413): visit each centroid with its cluster id, skip ids whose class
of event indices is empty (`continue`), and renumber the surviving
clusters compactly (`id: clusters.len()`, here the position in the
filtered list); K-means has no noise. -/
def kmeans_build (events : List Event) (centroids : List Location)
    (labels : List ℤ) : ClusteringResult :=
  let nonempty := centroids.enum.filter fun p =>
    ¬ ((List.range labels.length).filter fun i => labels.getD i 0 = (p.1 : ℤ)).isEmpty
  let clusters := nonempty.enum.map fun q =>
    let event_indices := (List.range labels.length).filter fun i =>
      labels.getD i 0 = (q.2.1 : ℤ)
    ({ id := q.1, event_indices := event_indices,
       centroid := q.2.2,
       bounds := compute_bounds (event_indices.map fun i => events.getD i default) } :
      Cluster)
  ⟨clusters, [], labels⟩

/-- `KMeans::cluster` (clustering.rs lines 307-414): guard degenerate
inputs, seed `min(k, n)` centroids deterministically at indices
`i*n/k`, iterate, and build the result. -/
def kmeans_cluster (hav : ℚ → ℚ → ℚ → ℚ → ℚ) (k max_iterations : ℕ)
    (tolerance : ℚ) (events : List Event) : ClusteringResult :=
  if events.length = 0 ∨ k = 0 then ⟨[], [], []⟩
  else
    let n := events.length
    let keff := min k n
    let locs := events.map fun e => e.location
    let initCentroids := (List.range keff).map fun i => locs.getD (i * n / keff) default
    let final := kmeansLoop hav tolerance locs max_iterations initCentroids
      (List.replicate n 0)
    kmeans_build events final.1 final.2

/-- A duplicate-free list of indices below `n` has at most `n`
entries. -/
theorem nodup_lt_length_le (l : List ℕ) (n : ℕ) (hnd : l.Nodup)
    (hb : ∀ i ∈ l, i < n) : l.length ≤ n := by
  have hsub : l.toFinset ⊆ Finset.range n := by
    intro i hi
    rw [List.mem_toFinset] at hi
    rw [Finset.mem_range]
    exact hb i hi
  have hcard := Finset.card_le_card hsub
  rwa [List.toFinset_card_of_nodup hnd, Finset.card_range] at hcard

/-- Each label value classifies at most one centroid slot with a
non-empty class, and each non-empty class owns at least one of the
`labels.length` indices, so there are at most `labels.length` non-empty
classes. -/
theorem filter_enum_classes_le (labels : List ℤ) (centroids : List Location) :
    (centroids.enum.filter fun p =>
      ¬ ((List.range labels.length).filter fun i =>
        labels.getD i 0 = (p.1 : ℤ)).isEmpty).length ≤ labels.length := by
  set nonempty := centroids.enum.filter fun p =>
    ¬ ((List.range labels.length).filter fun i =>
      labels.getD i 0 = (p.1 : ℤ)).isEmpty with hne
  set f : ℕ → ℕ := fun c =>
    ((List.range labels.length).filter fun i => labels.getD i 0 = (c : ℤ)).headI with hf
  have hfst_nodup : (nonempty.map Prod.fst).Nodup := by
    have hsub : (nonempty.map Prod.fst).Sublist (centroids.enum.map Prod.fst) :=
      (List.filter_sublist _).map _
    rw [List.enum_map_fst] at hsub
    exact List.Nodup.sublist hsub (List.nodup_range _)
  have hclass : ∀ c ∈ nonempty.map Prod.fst,
      f c < labels.length ∧ labels.getD (f c) 0 = (c : ℤ) := by
    intro c hc
    rw [List.mem_map] at hc
    obtain ⟨p, hp, rfl⟩ := hc
    rw [hne, List.mem_filter] at hp
    have hcls : ((List.range labels.length).filter fun i =>
        labels.getD i 0 = (p.1 : ℤ)) ≠ [] := by
      intro hnil
      have := hp.2
      rw [hnil] at this
      simp at this
    have hhead : f p.1 ∈ (List.range labels.length).filter fun i =>
        labels.getD i 0 = (p.1 : ℤ) := by
      rw [hf]
      rcases hcl : (List.range labels.length).filter fun i =>
          labels.getD i 0 = (p.1 : ℤ) with _ | ⟨h, t⟩
      · exact absurd hcl hcls
      · dsimp only
        rw [hcl]
        simp [List.headI]
    rw [List.mem_filter, List.mem_range] at hhead
    exact ⟨hhead.1, by simpa using hhead.2⟩
  have hmap_nodup : ((nonempty.map Prod.fst).map f).Nodup := by
    refine hfst_nodup.map_on ?_
    intro x hx y hy hxy
    have hxv := (hclass x hx).2
    have hyv := (hclass y hy).2
    rw [hxy, hyv] at hxv
    exact_mod_cast hxv.symm
  have hbound : ∀ v ∈ (nonempty.map Prod.fst).map f, v < labels.length := by
    intro v hv
    rw [List.mem_map] at hv
    obtain ⟨c, hc, rfl⟩ := hv
    exact (hclass c hc).1
  have := nodup_lt_length_le _ _ hmap_nodup hbound
  simpa using this

/-- The iteration loop never changes the number of centroids. -/
theorem kmeansLoop_centroids_length (hav : ℚ → ℚ → ℚ → ℚ → ℚ) (tolerance : ℚ)
    (locs : List Location) :
    ∀ m centroids labels,
      (kmeansLoop hav tolerance locs m centroids labels).1.length = centroids.length := by
  intro m
  induction m with
  | zero => intro centroids labels; rfl
  | succ m ih =>
    intro centroids labels
    rw [kmeansLoop]
    split
    · show (kmeansUpdate hav tolerance locs _ centroids).1.length = _
      show (centroids.enum.map _).length = _
      rw [List.length_map, List.enum_length]
    · rw [ih]
      show (kmeansUpdate hav tolerance locs _ centroids).1.length = _
      show (centroids.enum.map _).length = _
      rw [List.length_map, List.enum_length]

/-- The iteration loop returns one label per location whenever it
starts with one label per location. -/
theorem kmeansLoop_labels_length (hav : ℚ → ℚ → ℚ → ℚ → ℚ) (tolerance : ℚ)
    (locs : List Location) :
    ∀ m centroids labels, labels.length = locs.length →
      (kmeansLoop hav tolerance locs m centroids labels).2.length = locs.length := by
  intro m
  induction m with
  | zero => intro centroids labels h; exact h
  | succ m ih =>
    intro centroids labels h
    rw [kmeansLoop]
    split
    · exact List.length_map locs _
    · exact ih _ _ (List.length_map locs _)

/-- The built K-means result has at most `min(#centroids, #labels)`
clusters: one per centroid slot, and only slots with a non-empty
disjoint class of indices survive. -/
theorem kmeans_build_clusters_le (events : List Event) (centroids : List Location)
    (labels : List ℤ) :
    (kmeans_build events centroids labels).clusters.length ≤
      min centroids.length labels.length := by
  have hform : (kmeans_build events centroids labels).clusters.length =
      (centroids.enum.filter fun p =>
        ¬ ((List.range labels.length).filter fun i =>
          labels.getD i 0 = (p.1 : ℤ)).isEmpty).enum.length := by
    show ((centroids.enum.filter _).enum.map _).length = _
    rw [List.length_map]
  rw [hform, List.enum_length]
  refine le_min ?_ (filter_enum_classes_le labels centroids)
  exact le_trans (List.length_filter_le _ _) (le_of_eq List.enum_length)

/-- C6: for every event slice of length `n` and every KMeans
configuration, the number of clusters in the result is at most
`min(k, n)`, and if `n = 0` or `k = 0` the result is empty (no
clusters, no noise, empty labels). -/
theorem kmeans_cluster_spec (hav : ℚ → ℚ → ℚ → ℚ → ℚ) (k max_iterations : ℕ)
    (tolerance : ℚ) (events : List Event) :
    (kmeans_cluster hav k max_iterations tolerance events).clusters.length ≤
      min k events.length ∧
    (events.length = 0 ∨ k = 0 →
      kmeans_cluster hav k max_iterations tolerance events = ⟨[], [], []⟩) := by
  by_cases hguard : events.length = 0 ∨ k = 0
  · rw [kmeans_cluster, if_pos hguard]
    exact ⟨by simp, fun _ => rfl⟩
  · rw [kmeans_cluster, if_neg hguard]
    push_neg at hguard
    refine ⟨?_, fun h => absurd h (by push_neg; exact hguard)⟩
    have hle := kmeans_build_clusters_le events
      (kmeansLoop hav tolerance (events.map fun e => e.location) max_iterations
        ((List.range (min k events.length)).map fun i =>
          (events.map fun e => e.location).getD (i * events.length / min k events.length)
            default)
        (List.replicate events.length 0)).1
      (kmeansLoop hav tolerance (events.map fun e => e.location) max_iterations
        ((List.range (min k events.length)).map fun i =>
          (events.map fun e => e.location).getD (i * events.length / min k events.length)
            default)
        (List.replicate events.length 0)).2
    have hclen : (kmeansLoop hav tolerance (events.map fun e => e.location) max_iterations
        ((List.range (min k events.length)).map fun i =>
          (events.map fun e => e.location).getD (i * events.length / min k events.length)
            default)
        (List.replicate events.length 0)).1.length = min k events.length := by
      rw [kmeansLoop_centroids_length, List.length_map, List.length_range]
    have hllen : (kmeansLoop hav tolerance (events.map fun e => e.location) max_iterations
        ((List.range (min k events.length)).map fun i =>
          (events.map fun e => e.location).getD (i * events.length / min k events.length)
            default)
        (List.replicate events.length 0)).2.length = events.length := by
      rw [kmeansLoop_labels_length, List.length_map]
      rw [List.length_replicate, List.length_map]
    rw [hclen, hllen] at hle
    calc (kmeans_build events _ _).clusters.length
        ≤ min (min k events.length) events.length := hle
      _ ≤ min k events.length := by omega

/-- C6 witness: the theorem applied to two coincident events with
`k = 10`: at most `min 10 2 = 2` clusters, and the empty-input case
returns the empty result. -/
theorem kmeans_cluster_spec_witness :
    (kmeans_cluster havZero 10 100 1 [originEvent, originLater]).clusters.length ≤
      min 10 [originEvent, originLater].length ∧
    kmeans_cluster havZero 10 100 1 [] = ⟨[], [], []⟩ :=
  ⟨(kmeans_cluster_spec havZero 10 100 1 [originEvent, originLater]).1,
    (kmeans_cluster_spec havZero 10 100 1 []).2 (Or.inl rfl)⟩

/-- C7: in every iteration of `KMeans::cluster`, the centroid update
(`kmeansUpdate`, the step applied by `kmeansLoop` after each
reassignment) leaves a centroid whose cluster has no assigned points
exactly as it was (no reinitialization), and replaces every other
centroid by the planar arithmetic mean of its assigned points. -/
theorem kmeans_empty_cluster_frozen (hav : ℚ → ℚ → ℚ → ℚ → ℚ) (tolerance : ℚ)
    (locs : List Location) (labels : List ℤ) (centroids : List Location) (c : ℕ)
    (hc : c < centroids.length) :
    (clusterPoints locs labels c = [] →
      (kmeansUpdate hav tolerance locs labels centroids).1.getD c default =
        centroids.getD c default) ∧
    (clusterPoints locs labels c ≠ [] →
      (kmeansUpdate hav tolerance locs labels centroids).1.getD c default =
        compute_centroid_from_locations (clusterPoints locs labels c)) := by
  have hform : (kmeansUpdate hav tolerance locs labels centroids).1 =
      centroids.enum.map fun p =>
        if (clusterPoints locs labels p.1).isEmpty then p.2
        else compute_centroid_from_locations (clusterPoints locs labels p.1) := rfl
  have hclen : (kmeansUpdate hav tolerance locs labels centroids).1.length =
      centroids.length := by
    rw [hform, List.length_map, List.enum_length]
  have hgd : (kmeansUpdate hav tolerance locs labels centroids).1.getD c default =
      (if (clusterPoints locs labels c).isEmpty then centroids[c]
       else compute_centroid_from_locations (clusterPoints locs labels c)) := by
    rw [List.getD_eq_getElem _ _ (by omega)]
    rw [List.getElem_of_eq hform (by omega)]
    rw [List.getElem_map]
    rw [List.getElem_enum]
  constructor
  · intro hemp
    rw [hgd, if_pos (List.isEmpty_iff.mpr hemp), List.getD_eq_getElem _ _ hc]
  · intro hne
    rw [hgd, if_neg (by simpa [List.isEmpty_iff] using hne)]

/-- C7 witness: with two points both assigned to cluster 1, the update
keeps empty cluster 0's centroid unchanged and moves cluster 1's
centroid to the planar mean of its points. -/
theorem kmeans_empty_cluster_frozen_witness :
    (kmeansUpdate havZero 1 [Location.new 1 1, Location.new 3 3] [1, 1]
      [Location.new 5 5, Location.new 9 9]).1.getD 0 default =
      [Location.new 5 5, Location.new 9 9].getD 0 default ∧
    (kmeansUpdate havZero 1 [Location.new 1 1, Location.new 3 3] [1, 1]
      [Location.new 5 5, Location.new 9 9]).1.getD 1 default =
      compute_centroid_from_locations
        (clusterPoints [Location.new 1 1, Location.new 3 3] [1, 1] 1) :=
  ⟨(kmeans_empty_cluster_frozen havZero 1 [Location.new 1 1, Location.new 3 3] [1, 1]
      [Location.new 5 5, Location.new 9 9] 0 (by norm_num)).1 (by decide),
    (kmeans_empty_cluster_frozen havZero 1 [Location.new 1 1, Location.new 3 3] [1, 1]
      [Location.new 5 5, Location.new 9 9] 1 (by norm_num)).2 (by decide)⟩

/-! ## Density map (`src/analysis/spatial_metrics.rs` lines 286-378)
and temporal summary metrics (`src/analysis/temporal_metrics.rs` lines
9-126), for the degenerate-input claims. -/

/-- `DensityCell` (spatial_metrics.rs lines 286-297). -/
structure DensityCell where
  lat : ℚ
  lon : ℚ
  count : ℕ
  density : ℚ
deriving DecidableEq, Repr

/-- `SpatialMetrics::compute_bounds` (spatial_metrics.rs lines
116-134): `None` for an empty input, otherwise the min/max box (the
Rust fold from `f64::MAX`/`f64::MIN` computes the list minima and
maxima). -/
def sm_compute_bounds (locations : List Location) : Option GeoBounds :=
  if locations.isEmpty then none
  else
    some { min_lat := qListMin (locations.map fun l => l.lat)
           max_lat := qListMax (locations.map fun l => l.lat)
           min_lon := qListMin (locations.map fun l => l.lon)
           max_lon := qListMax (locations.map fun l => l.lon) }

/-- `density_map` (spatial_metrics.rs lines 312-378): guard degenerate
inputs, partition the bounding box into an equal-angle grid, count the
events per cell (clamping the row/column index into the last
row/column), and report each cell's centre, count, approximate area
density.  Notes on the `f64` corner cases: when all latitudes are
equal, `lat_step = 0` and Rust computes `0.0/0.0 = NaN`, whose
`as usize` cast is `0` — the embedding's rational `0 / 0 = 0` gives the
same row index; the `floor() as usize` cast saturates negatives to `0`,
which is `Int.toNat`. -/
def density_map (hav : ℚ → ℚ → ℚ → ℚ → ℚ) (events : List Event)
    (rows cols : ℕ) : List DensityCell :=
  if events.isEmpty ∨ rows = 0 ∨ cols = 0 then []
  else
    let locations := events.map fun e => e.location
    match sm_compute_bounds locations with
    | none => []
    | some bounds =>
      let lat_step := (bounds.max_lat - bounds.min_lat) / (rows : ℚ)
      let lon_step := (bounds.max_lon - bounds.min_lon) / (cols : ℚ)
      let rowOf := fun (l : Location) =>
        min (⌊(l.lat - bounds.min_lat) / lat_step⌋.toNat) (rows - 1)
      let colOf := fun (l : Location) =>
        min (⌊(l.lon - bounds.min_lon) / lon_step⌋.toNat) (cols - 1)
      (List.range rows).flatMap fun row =>
        (List.range cols).map fun col =>
          let count := locations.countP fun l => rowOf l = row ∧ colOf l = col
          let cell_lat := bounds.min_lat + ((row : ℚ) + 1/2) * lat_step
          let cell_lon := bounds.min_lon + ((col : ℚ) + 1/2) * lon_step
          let width_m := hav cell_lat bounds.min_lon cell_lat (bounds.min_lon + lon_step)
          let height_m := hav bounds.min_lat cell_lon (bounds.min_lat + lat_step) cell_lon
          let area_km2 := (width_m * height_m) / 1000000
          { lat := cell_lat, lon := cell_lon, count := count,
            density := if area_km2 > 0 then (count : ℚ) / area_km2 else 0 }

/-- `TemporalMetrics` (temporal_metrics.rs lines 9-26).  The standard
deviation involves a square root, which is not rational; it is kept
abstract as the parameter `sqrtq` of the functions below (the claims
under verification never evaluate it). -/
structure TemporalMetrics where
  event_count : ℕ
  time_range : Option TimeRange
  duration_secs : ℚ
  avg_inter_event_time : ℚ
  min_inter_event_time : ℚ
  max_inter_event_time : ℚ
  inter_event_std_dev : ℚ
deriving DecidableEq, Repr

/-- `TemporalMetrics::default` (temporal_metrics.rs lines 28-40). -/
def temporalMetricsDefault : TemporalMetrics :=
  { event_count := 0, time_range := none, duration_secs := 0,
    avg_inter_event_time := 0, min_inter_event_time := 0,
    max_inter_event_time := 0, inter_event_std_dev := 0 }

/-- `TemporalMetrics::compute_inter_event_stats` (temporal_metrics.rs
lines 103-125): consecutive gaps in seconds of the sorted timestamps;
mean, min, max (Rust folds from `±INFINITY`, which for a non-empty gap
list is the list minimum/maximum) and population standard deviation
(`sqrtq` of the variance). -/
def compute_inter_event_stats (sqrtq : ℚ → ℚ) (sorted : List ℤ) : ℚ × ℚ × ℚ × ℚ :=
  if sorted.length < 2 then (0, 0, 0, 0)
  else
    let gaps := (sorted.zip sorted.tail).map fun p => ((p.2 - p.1 : ℤ) : ℚ) / 1000
    let avg := gaps.sum / (gaps.length : ℚ)
    let minG := qListMin gaps
    let maxG := qListMax gaps
    let variance := (gaps.map fun g => (g - avg) ^ 2).sum / (gaps.length : ℚ)
    (avg, minG, maxG, sqrtq variance)

/-- `TemporalMetrics::from_timestamps` (temporal_metrics.rs lines
72-101). -/
def temporalMetrics_from_timestamps (sqrtq : ℚ → ℚ)
    (timestamps : List ℤ) : TemporalMetrics :=
  if timestamps.isEmpty then temporalMetricsDefault
  else
    let sorted := timestamps.mergeSort fun a b => a ≤ b
    let first := sorted.headI
    let last := sorted.getLastI
    let stats := compute_inter_event_stats sqrtq sorted
    { event_count := timestamps.length,
      time_range := some { start := first, stop := last },
      duration_secs := ((last - first : ℤ) : ℚ) / 1000,
      avg_inter_event_time := stats.1,
      min_inter_event_time := stats.2.1,
      max_inter_event_time := stats.2.2.1,
      inter_event_std_dev := stats.2.2.2 }

/-- `TemporalMetrics::from_events` (temporal_metrics.rs lines 62-69). -/
def temporalMetrics_from_events (sqrtq : ℚ → ℚ) (events : List Event) :
    TemporalMetrics :=
  if events.isEmpty then temporalMetricsDefault
  else temporalMetrics_from_timestamps sqrtq (events.map fun e => e.timestamp)

/-- C9: the analytics entry points are total on degenerate inputs: an
empty event list, `k = 0` for K-means, and zero grid rows or columns
for `density_map` each return the documented default/empty/zero-valued
result rather than failing (the cited entry points: `density_map`,
`KMeans::cluster`, `TemporalMetrics::from_events`; all embedded
functions are total Lean functions, so no panic is possible on any
input). -/
theorem degenerate_inputs_total (hav : ℚ → ℚ → ℚ → ℚ → ℚ) (sqrtq : ℚ → ℚ) :
    (∀ rows cols, density_map hav [] rows cols = []) ∧
    (∀ events cols, density_map hav events 0 cols = []) ∧
    (∀ events rows, density_map hav events rows 0 = []) ∧
    (∀ k max_iterations tolerance,
      kmeans_cluster hav k max_iterations tolerance [] = ⟨[], [], []⟩) ∧
    (∀ max_iterations tolerance events,
      kmeans_cluster hav 0 max_iterations tolerance events = ⟨[], [], []⟩) ∧
    temporalMetrics_from_events sqrtq [] = temporalMetricsDefault := by
  refine ⟨?_, ?_, ?_, ?_, ?_, rfl⟩
  · intro rows cols
    simp [density_map]
  · intro events cols
    simp [density_map]
  · intro events rows
    simp [density_map]
  · intro k max_iterations tolerance
    simp [kmeans_cluster]
  · intro max_iterations tolerance events
    simp [kmeans_cluster]
